import Mathlib

/-!
Monte Carlo estimation of Euler's number: a verification development.

Shallow embedding of `src/main.c`.

Modelling conventions.

* In `sample_uniform` and `simple_e` a C `double` is an IEEE 754 binary64
  value (`Double`): a finite rational, an infinity or NaN. Every arithmetic
  operation computes the exact result and rounds it to the nearest double,
  ties to even, with overflow to an infinity (`Double.rnd`). The sign of zero
  is not kept.
* `rand()` is a global generator. Its outputs are an explicit stream
  `rand : ℕ → ℕ`, and the generator state is the number of outputs consumed
  so far (`pos`). `RAND_MAX` comes from `<stdlib.h>` and is a parameter.
* The `while` loop of `simple_e` may run forever, so its embedding takes a
  fuel bound and returns `none` when the bound is exhausted.
* The UxHw primitives come from `<uxhw.h>` and are parameters of `e`. A double
  that carries a distribution has an abstract type `D`; plain doubles passed
  where a distribution is expected are injected with `point`. The plain
  doubles of `e` (probabilities and moments) are exact rationals: what is
  proved about `e` holds for every interpretation of the primitives or is
  stated over exact arithmetic.
-/

namespace SignaloidConstants

/-- Values of an IEEE 754 binary64 `double`: a finite value, the two
infinities, or NaN. The sign of zero is not kept: the program never divides by
a zero-valued double and never inspects a sign bit. -/
inductive Double where
  | fin (q : ℚ)
  | pinf
  | ninf
  | nan
  deriving DecidableEq

namespace Double

/-- Nearest integer, ties to the even one. -/
def roundHalfEven (x : ℚ) : ℤ :=
  if x - ⌊x⌋ < 1 / 2 then ⌊x⌋
  else if 1 / 2 < x - ⌊x⌋ then ⌊x⌋ + 1
  else if ⌊x⌋ % 2 = 0 then ⌊x⌋ else ⌊x⌋ + 1

/-- Exponent of the binade of `x ≥ 0`, not below the least normal exponent
`-1022` (subnormal values share the spacing of the least binade). -/
def exponent (x : ℚ) : ℤ :=
  max (Int.log 2 x) (-1022)

/-- Spacing of binary64 values around `x ≥ 0`: 53 significant bits. -/
def ulp (x : ℚ) : ℚ :=
  (2 : ℚ) ^ (exponent x - 52)

/-- Round-to-nearest-even of a magnitude `x ≥ 0`, exponent unbounded above. -/
def roundMag (x : ℚ) : ℚ :=
  (roundHalfEven (x / ulp x) : ℚ) * ulp x

/-- Round-to-nearest-even of a rational, exponent unbounded above. -/
def roundQ (q : ℚ) : ℚ :=
  if 0 ≤ q then roundMag q else -roundMag (-q)

/-- Rounding of an exact result to binary64 (the default rounding mode,
round-to-nearest-even): results of magnitude `2^1024` or more overflow to an
infinity. -/
def rnd (q : ℚ) : Double :=
  if (2 : ℚ) ^ 1024 ≤ roundQ q then pinf
  else if roundQ q ≤ -(2 : ℚ) ^ 1024 then ninf
  else fin (roundQ q)

/-- Conversion of a non-negative C integer to `double`. -/
def ofNat (n : ℕ) : Double :=
  rnd (n : ℚ)

/-- Double addition. -/
def fadd : Double → Double → Double
  | fin a, fin b => rnd (a + b)
  | nan, _ => nan
  | _, nan => nan
  | pinf, ninf => nan
  | ninf, pinf => nan
  | pinf, _ => pinf
  | _, pinf => pinf
  | ninf, _ => ninf
  | _, ninf => ninf

/-- Double negation. -/
def fneg : Double → Double
  | fin a => fin (-a)
  | pinf => ninf
  | ninf => pinf
  | nan => nan

/-- Double subtraction. -/
def fsub (a b : Double) : Double :=
  fadd a (fneg b)

/-- The infinity of the given sign. -/
def signedInf (positive : Bool) : Double :=
  if positive then pinf else ninf

/-- Double multiplication. -/
def fmul : Double → Double → Double
  | fin a, fin b => rnd (a * b)
  | nan, _ => nan
  | _, nan => nan
  | fin a, pinf => if a = 0 then nan else signedInf (decide (0 < a))
  | fin a, ninf => if a = 0 then nan else signedInf (decide (a < 0))
  | pinf, fin b => if b = 0 then nan else signedInf (decide (0 < b))
  | ninf, fin b => if b = 0 then nan else signedInf (decide (b < 0))
  | pinf, pinf => pinf
  | ninf, ninf => pinf
  | pinf, ninf => ninf
  | ninf, pinf => ninf

/-- Double division. A zero divisor is taken as `+0`. -/
def fdiv : Double → Double → Double
  | fin a, fin b =>
    if b = 0 then (if a = 0 then nan else signedInf (decide (0 < a)))
    else rnd (a / b)
  | nan, _ => nan
  | _, nan => nan
  | fin _, pinf => fin 0
  | fin _, ninf => fin 0
  | pinf, fin b => signedInf (decide (0 ≤ b))
  | ninf, fin b => signedInf (decide (b < 0))
  | pinf, pinf => nan
  | pinf, ninf => nan
  | ninf, pinf => nan
  | ninf, ninf => nan

/-- The C comparison `a < b` on doubles (false when an operand is NaN). -/
def flt : Double → Double → Bool
  | fin a, fin b => decide (a < b)
  | nan, _ => false
  | _, nan => false
  | ninf, ninf => false
  | ninf, _ => true
  | _, ninf => false
  | pinf, _ => false
  | _, pinf => true

/-- The C comparison `a <= b` on doubles (false when an operand is NaN). -/
def fle : Double → Double → Bool
  | fin a, fin b => decide (a ≤ b)
  | nan, _ => false
  | _, nan => false
  | ninf, _ => true
  | _, pinf => true
  | pinf, _ => false
  | _, ninf => false

/-- A magnitude that binary64 holds exactly when its exponent range is
unbounded above: at most 53 significant bits and no bit below `2^(-1074)`. -/
def RepresentableMag (x : ℚ) : Prop :=
  ∃ (m : ℕ) (k : ℤ), m < 2 ^ 53 ∧ -1074 ≤ k ∧ x = (m : ℚ) * (2 : ℚ) ^ k

/-- A rational that is the value of a finite double: a representable magnitude
below `2^1024`, with a sign. -/
def IsFinite (x : ℚ) : Prop :=
  RepresentableMag |x| ∧ |x| < (2 : ℚ) ^ 1024

end Double

/-! ## `sample_uniform` -/

/-- Embedding of `sample_uniform(min, max)` (main.c, lines 13-16); `r` is the
value returned by the call of `rand()` on line 14. Both `int` operands of
line 14 are converted to `double` before the division. -/
def sample_uniform (RAND_MAX : ℕ) (r : ℕ) (min max : Double) : Double :=
  let s : Double := Double.fdiv (Double.ofNat r) (Double.ofNat RAND_MAX)
  Double.fadd (Double.fmul s (Double.fsub max min)) min

/-- Errors named by the specification for the sampler. -/
inductive SamplerError where
  | InvalidIntervalError
  deriving DecidableEq, Repr

/-- Outcome of a call of `sample_uniform` as its caller observes it. The C
function consists of two statements, the second being its only `return`;
there is no test of `min` against `max` and no error path, so every call
ends in a normal return. -/
def sample_uniform_call (RAND_MAX : ℕ) (r : ℕ) (min max : Double) :
    Except SamplerError Double :=
  Except.ok (sample_uniform RAND_MAX r min max)

/-! ## `simple_e` -/

/-- Embedding of the `while` loop of `simple_e` (main.c, lines 38-41). The
state is `(rolling_sum, count, pos)`, where `pos` is the number of `rand()`
outputs consumed. `none` means that the fuel ran out while the loop
condition still held. -/
def simple_e_while (RAND_MAX : ℕ) (rand : ℕ → ℕ) :
    ℕ → Double → Double → ℕ → Option (Double × Double × ℕ)
  | 0, rolling_sum, count, pos =>
    if Double.flt rolling_sum (Double.fin 1) then none else some (rolling_sum, count, pos)
  | fuel + 1, rolling_sum, count, pos =>
    if Double.flt rolling_sum (Double.fin 1) then
      let count := Double.fadd count (Double.fin 1)
      let rolling_sum := Double.fadd rolling_sum
        (sample_uniform RAND_MAX (rand pos) (Double.fin 0) (Double.fin 1))
      simple_e_while RAND_MAX rand fuel rolling_sum count (pos + 1)
    else some (rolling_sum, count, pos)

/-- Embedding of the `for` loop of `simple_e` (main.c, lines 34-44). The state
is `(total_count, pos)`; `i` is the loop counter and `n_monte_carlo` the value
of the double it is compared with (the conversion of the `int` counter to
`double` is exact, so the comparison is one of exact values). Every run of the
inner loop gets `fuel` steps. -/
def simple_e_for (RAND_MAX : ℕ) (rand : ℕ → ℕ) (fuel : ℕ) (n_monte_carlo : ℚ)
    (i : ℕ) (total_count : Double) (pos : ℕ) : Option (Double × ℕ) :=
  if h : (i : ℚ) < n_monte_carlo then
    let rolling_sum : Double := Double.fin 0
    let count : Double := Double.fin 0
    match simple_e_while RAND_MAX rand fuel rolling_sum count pos with
    | none => none
    | some (_, count, pos) =>
      simple_e_for RAND_MAX rand fuel n_monte_carlo (i + 1)
        (Double.fadd total_count count) pos
  else some (total_count, pos)
termination_by ⌈n_monte_carlo⌉₊ - i
decreasing_by
  have hlt : i < ⌈n_monte_carlo⌉₊ := Nat.lt_ceil.mpr h
  omega

/-- Embedding of `simple_e()` (main.c, lines 30-47). -/
def simple_e (RAND_MAX : ℕ) (rand : ℕ → ℕ) (fuel : ℕ) : Option Double :=
  let n_monte_carlo : ℚ := 50000
  let total_count : Double := Double.fin 0
  match simple_e_for RAND_MAX rand fuel n_monte_carlo 0 total_count 0 with
  | none => none
  | some (total_count, _) => some (Double.fdiv total_count (Double.fin n_monte_carlo))

/-- The `j`-th draw of a run: `sample_uniform(0, 1)` at the `j`-th output of
`rand()`. -/
def draw (RAND_MAX : ℕ) (rand : ℕ → ℕ) (j : ℕ) : Double :=
  sample_uniform RAND_MAX (rand j) (Double.fin 0) (Double.fin 1)

/-- The double `s` after the `k` draws that follow position `pos` have been
added to it one by one, each addition rounded. -/
def sumFrom (RAND_MAX : ℕ) (rand : ℕ → ℕ) (s : Double) (pos : ℕ) : ℕ → Double
  | 0 => s
  | k + 1 => Double.fadd (sumFrom RAND_MAX rand s pos k) (draw RAND_MAX rand (pos + k))

/-- Sum of the `k` draws that follow position `pos`, in double arithmetic:
the draws are added one by one to 0, each addition rounded. -/
def partialSum (RAND_MAX : ℕ) (rand : ℕ → ℕ) (pos k : ℕ) : Double :=
  sumFrom RAND_MAX rand (Double.fin 0) pos k

/-- The double `c` after `k` additions of 1, each rounded. -/
def countFrom (c : Double) : ℕ → Double
  | 0 => c
  | k + 1 => Double.fadd (countFrom c k) (Double.fin 1)

/-- The count that a repetition holds after `k` draws: `k` additions of 1 to
the double 0. It is `k` itself up to `2^53`. -/
def recordedCount (k : ℕ) : Double :=
  countFrom (Double.fin 0) k

/-- A repetition that starts at position `pos` consumes exactly `k` draws:
the sum of the first `k` draws is at least 1 and every shorter partial sum is
below 1 (sums and comparisons in double arithmetic). -/
def StopsAfter (RAND_MAX : ℕ) (rand : ℕ → ℕ) (pos k : ℕ) : Prop :=
  Double.fle (Double.fin 1) (partialSum RAND_MAX rand pos k) = true
    ∧ ∀ j, j < k → Double.flt (partialSum RAND_MAX rand pos j) (Double.fin 1) = true

/-- Position in the stream at which repetition `i` starts, when repetition
`j` consumes `counts j` draws. -/
def startOf (counts : ℕ → ℕ) (i : ℕ) : ℕ :=
  ∑ j in Finset.range i, counts j

/-- The double `total_count` after the first `i` repetitions, when repetition
`j` consumes `counts j` draws: the recorded counts are added one by one to 0,
each addition rounded. -/
def totalAfter (counts : ℕ → ℕ) : ℕ → Double
  | 0 => Double.fin 0
  | i + 1 => Double.fadd (totalAfter counts i) (recordedCount (counts i))

/-- A generator output stream for `RAND_MAX = 2147483647` whose first three
outputs add up to `RAND_MAX`; all later outputs are `RAND_MAX`. -/
def nearOneStream (j : ℕ) : ℕ :=
  if j = 0 then 2038811262 else if j = 1 then 49937088 else if j = 2 then 58735297
  else 2147483647

/-- A generator output stream for `RAND_MAX = 2147483647` with the same first
three outputs as `nearOneStream`; all later outputs are 0. -/
def stallingStream (j : ℕ) : ℕ :=
  if j = 0 then 2038811262 else if j = 1 then 49937088 else if j = 2 then 58735297
  else 0

/-! ## `e` -/

/-- The UxHw interface that `e()` uses. `D` is the type of doubles that carry
a distribution. `point` injects a plain double (a point mass) and `add` is
`+` on distribution-carrying doubles; the four remaining fields are the
primitives declared in `<uxhw.h>`. -/
structure UxHw (D : Type) where
  point : ℚ → D
  add : D → D → D
  UxHwDoubleProbabilityGT : D → ℚ → ℚ
  UxHwDoubleMixture : D → D → ℚ → D
  UxHwDoubleUniformDist : ℚ → ℚ → D
  UxHwDoubleNthMoment : D → ℕ → ℚ

variable {D : Type}

/-- Embedding of the `for` loop of `e()` (main.c, lines 72-77). The state is
`(rolling_sum, count)`; `i` is the loop counter and `n` its bound. -/
def e_for (U : UxHw D) (n : ℚ) (i : ℕ) (rolling_sum count : D) : D × D :=
  if h : (i : ℚ) < n then
    let p : ℚ := U.UxHwDoubleProbabilityGT rolling_sum 1.0
    let count := U.add count (U.UxHwDoubleMixture (U.point 1) (U.point 0) (1 - p))
    let rolling_sum := U.add rolling_sum (U.UxHwDoubleUniformDist 0 1)
    e_for U n (i + 1) rolling_sum count
  else (rolling_sum, count)
termination_by ⌈n⌉₊ - i
decreasing_by
  have hlt : i < ⌈n⌉₊ := Nat.lt_ceil.mpr h
  omega

/-- Embedding of `e()` (main.c, lines 67-80). -/
def e (U : UxHw D) : ℚ :=
  let rolling_sum : D := U.point 0
  let n : ℚ := 10
  let count : D := U.point 0
  let final := e_for U n 0 rolling_sum count
  U.UxHwDoubleNthMoment final.2 1

/-- Rolling sum that `e()` holds after `i` passes through its loop body. -/
def e_rolling_sum (U : UxHw D) (i : ℕ) : D :=
  (e_for U (i : ℚ) 0 (U.point 0) (U.point 0)).1

/-- Probability `p` that `e()` computes in pass `i` of its loop (passes are
numbered from 0): the first statement of the body, applied to the rolling sum
left by the `i` passes before. -/
def e_p (U : UxHw D) (i : ℕ) : ℚ :=
  U.UxHwDoubleProbabilityGT (e_rolling_sum U i) 1.0

namespace DistributionalEstimator

/-- One step of the estimator as the specification words it (section 4.4,
items 1 to 3), on the pair `(sum, count)`. -/
def step (U : UxHw D) (state : D × D) : D × D :=
  let p := U.UxHwDoubleProbabilityGT state.1 1
  let count := U.add state.2 (U.UxHwDoubleMixture (U.point 1) (U.point 0) (1 - p))
  let sum := U.add state.1 (U.UxHwDoubleUniformDist 0 1)
  (sum, count)

/-- The estimator `estimate(steps)` as the specification words it: start from
`sum` and `count` concentrated at 0, take `steps` steps, return the first
moment of `count`. -/
def estimate (U : UxHw D) (steps : ℕ) : ℚ :=
  U.UxHwDoubleNthMoment ((step U)^[steps] (U.point 0, U.point 0)).2 1

end DistributionalEstimator

/-- Sum of `i` draws `UxHwDoubleUniformDist(0, 1)`, added one by one to the
point mass at 0. -/
def sumOfUniforms (U : UxHw D) : ℕ → D
  | 0 => U.point 0
  | i + 1 => U.add (sumOfUniforms U i) (U.UxHwDoubleUniformDist 0 1)

/-- Interpretation that keeps, of each value `e()` builds, its mean and the
number of `Uniform(0, 1)` summands in it. The probability that a sum of `k`
independent `Uniform(0, 1)` draws exceeds 1 is `1 - 1/k!`. -/
def uniformSums : UxHw (ℚ × ℕ) where
  point q := (q, 0)
  add a b := (a.1 + b.1, a.2 + b.2)
  UxHwDoubleProbabilityGT a _ := 1 - 1 / (a.2.factorial : ℚ)
  UxHwDoubleMixture a b q := (q * a.1 + (1 - q) * b.1, 0)
  UxHwDoubleUniformDist lo hi := ((lo + hi) / 2, 1)
  UxHwDoubleNthMoment a _ := a.1

/-! ## The uncertain-value substrate of the specification -/

/-- Modelled from the spec: the `UncertainValue` of section 3, a finite
ensemble of `(value, weight)` pairs. The repository holds no implementation
of the substrate: `main.c` takes its operations from `<uxhw.h>`. -/
abbrev UncertainValue := List (ℚ × ℚ)

namespace UncertainValue

/-- Modelled from the spec: total weight of an ensemble (section 3 has no
code for it in the repository). -/
def totalWeight (a : UncertainValue) : ℚ :=
  (a.map Prod.snd).sum

/-- Modelled from the spec: the invariant of section 3, absent from the
repository: weights are non-negative and sum to 1. -/
def Valid (a : UncertainValue) : Prop :=
  (∀ x ∈ a, 0 ≤ x.2) ∧ totalWeight a = 1

/-- Modelled from the spec: `valueConcentratedAt(v)` of section 4.4, absent
from the repository: the degenerate value with all weight on `v`. -/
def valueConcentratedAt (v : ℚ) : UncertainValue :=
  [(v, 1)]

/-- Modelled from the spec: weighting of an ensemble by a factor, the first
half of `mixture` in section 4.2, absent from the repository. -/
def reweight (c : ℚ) (a : UncertainValue) : UncertainValue :=
  a.map (fun x => (x.1, c * x.2))

/-- Modelled from the spec: renormalisation of the weights to total 1, the
second half of `mixture` in section 4.2, absent from the repository. -/
def renormalize (a : UncertainValue) : UncertainValue :=
  a.map (fun x => (x.1, x.2 / totalWeight a))

/-- Modelled from the spec: `mixture` of section 4.2, absent from the
repository: "an ensemble formed by weighting the two input ensembles by
`probabilityOfTrue` and `1 - probabilityOfTrue` respectively and
renormalizing". -/
def mixture (valueIfTrue valueIfFalse : UncertainValue) (probabilityOfTrue : ℚ) :
    UncertainValue :=
  renormalize (reweight probabilityOfTrue valueIfTrue
    ++ reweight (1 - probabilityOfTrue) valueIfFalse)

/-- Modelled from the spec: weighted average of `f` over the ensemble, the
form of every statistic of section 4.2 (absent from the repository):
`nthMoment(a, n)` is `expectation a (fun v => v ^ n)`, and
`probabilityGreaterThan(a, t)` is the expectation of the indicator of
`t < v`. -/
def expectation (a : UncertainValue) (f : ℚ → ℚ) : ℚ :=
  (a.map (fun x => x.2 * f x.1)).sum

/-- Modelled from the spec: two ensembles are the same distribution
("statistically indistinguishable", section 8; no code in the repository)
when every statistic has the same value on both. -/
def SameDistribution (a b : UncertainValue) : Prop :=
  ∀ f : ℚ → ℚ, expectation a f = expectation b f

end UncertainValue

/-! ## Lemmas on double arithmetic -/

namespace Double

/-! ### Nearest integer -/

theorem roundHalfEven_intCast (n : ℤ) : roundHalfEven (n : ℚ) = n := by
  simp [roundHalfEven]

theorem floor_le_roundHalfEven (x : ℚ) : ⌊x⌋ ≤ roundHalfEven x := by
  unfold roundHalfEven
  split_ifs <;> omega

theorem roundHalfEven_le_floor_succ (x : ℚ) : roundHalfEven x ≤ ⌊x⌋ + 1 := by
  unfold roundHalfEven
  split_ifs <;> omega

theorem roundHalfEven_mono {x y : ℚ} (h : x ≤ y) : roundHalfEven x ≤ roundHalfEven y := by
  have hfl : ⌊x⌋ ≤ ⌊y⌋ := Int.floor_mono h
  rcases lt_or_eq_of_le hfl with hlt | heq
  · calc roundHalfEven x ≤ ⌊x⌋ + 1 := roundHalfEven_le_floor_succ x
      _ ≤ ⌊y⌋ := hlt
      _ ≤ roundHalfEven y := floor_le_roundHalfEven y
  · have hq : ((⌊x⌋ : ℤ) : ℚ) = ((⌊y⌋ : ℤ) : ℚ) := by rw [heq]
    unfold roundHalfEven
    split_ifs <;> first | omega | (exfalso; linarith)

theorem roundHalfEven_le_of_le {x : ℚ} {n : ℤ} (h : x ≤ n) : roundHalfEven x ≤ n := by
  have := roundHalfEven_mono h
  rwa [roundHalfEven_intCast] at this

theorem le_roundHalfEven_of_le {x : ℚ} {n : ℤ} (h : (n : ℚ) ≤ x) : n ≤ roundHalfEven x := by
  have := roundHalfEven_mono h
  rwa [roundHalfEven_intCast] at this

/-! ### Rounding of magnitudes -/

theorem two_zpow_pos (k : ℤ) : (0 : ℚ) < (2 : ℚ) ^ k :=
  zpow_pos (by norm_num) k

theorem ulp_pos (x : ℚ) : 0 < ulp x :=
  two_zpow_pos _

theorem exponent_ge (x : ℚ) : -1022 ≤ exponent x :=
  le_max_right _ _

theorem two_pow53_mul_ulp (x : ℚ) : (2 : ℚ) ^ 53 * ulp x = (2 : ℚ) ^ (exponent x + 1) := by
  unfold ulp
  rw [show exponent x + 1 = 53 + (exponent x - 52) by ring, zpow_add₀ (by norm_num)]
  norm_num

theorem two_pow52_mul_ulp (x : ℚ) : (2 : ℚ) ^ 52 * ulp x = (2 : ℚ) ^ exponent x := by
  unfold ulp
  rw [show exponent x = 52 + (exponent x - 52) by ring, zpow_add₀ (by norm_num)]
  norm_num

theorem lt_two_zpow_exponent (x : ℚ) : x < (2 : ℚ) ^ (exponent x + 1) := by
  have h := Int.lt_zpow_succ_log_self (b := 2) (by norm_num) x
  have hle : Int.log 2 x + 1 ≤ exponent x + 1 := by
    have := le_max_left (Int.log 2 x) (-1022)
    unfold exponent
    omega
  have h2 : (2 : ℚ) ^ (Int.log 2 x + 1) ≤ (2 : ℚ) ^ (exponent x + 1) :=
    zpow_le_zpow_right₀ (by norm_num) hle
  have h3 : x < (2 : ℚ) ^ (Int.log 2 x + 1) := by simpa using h
  exact lt_of_lt_of_le h3 h2

theorem two_zpow_exponent_le {x : ℚ} (hx : 0 < x) (hE : -1022 < exponent x) :
    (2 : ℚ) ^ exponent x ≤ x := by
  have hlog : exponent x = Int.log 2 x := by
    unfold exponent at hE ⊢
    rcases le_total (Int.log 2 x) (-1022) with h | h
    · rw [max_eq_right h] at hE; omega
    · exact max_eq_left h
  rw [hlog]
  have := Int.zpow_log_le_self (b := 2) (by norm_num) hx
  simpa using this

theorem exponent_mono {x y : ℚ} (hx : 0 < x) (h : x ≤ y) : exponent x ≤ exponent y := by
  unfold exponent
  exact max_le_max (Int.log_mono_right hx h) (le_refl _)

theorem roundMag_zero : roundMag 0 = 0 := by
  simp [roundMag, roundHalfEven]

theorem roundMag_nonneg {x : ℚ} (hx : 0 ≤ x) : 0 ≤ roundMag x := by
  unfold roundMag
  have h0 : (0 : ℤ) ≤ roundHalfEven (x / ulp x) :=
    le_roundHalfEven_of_le (by simpa using div_nonneg hx (ulp_pos x).le)
  have : (0 : ℚ) ≤ (roundHalfEven (x / ulp x) : ℚ) := by exact_mod_cast h0
  exact mul_nonneg this (ulp_pos x).le

theorem roundHalfEven_div_ulp_le (x : ℚ) : roundHalfEven (x / ulp x) ≤ 2 ^ 53 := by
  apply roundHalfEven_le_of_le
  rw [div_le_iff₀ (ulp_pos x)]
  have h := (lt_two_zpow_exponent x).le
  rw [← two_pow53_mul_ulp] at h
  push_cast
  exact h

theorem roundMag_le_two_zpow (x : ℚ) : roundMag x ≤ (2 : ℚ) ^ (exponent x + 1) := by
  unfold roundMag
  rw [← two_pow53_mul_ulp]
  have : (roundHalfEven (x / ulp x) : ℚ) ≤ (2 : ℚ) ^ 53 := by
    exact_mod_cast roundHalfEven_div_ulp_le x
  exact mul_le_mul_of_nonneg_right this (ulp_pos x).le

theorem two_zpow_le_roundMag {x : ℚ} (hx : 0 < x) (hE : -1022 < exponent x) :
    (2 : ℚ) ^ exponent x ≤ roundMag x := by
  unfold roundMag
  rw [← two_pow52_mul_ulp]
  have h1 : (2 : ℤ) ^ 52 ≤ roundHalfEven (x / ulp x) := by
    apply le_roundHalfEven_of_le
    rw [le_div_iff₀ (ulp_pos x)]
    have h := two_zpow_exponent_le hx hE
    rw [← two_pow52_mul_ulp] at h
    push_cast
    exact h
  have : (2 : ℚ) ^ 52 ≤ (roundHalfEven (x / ulp x) : ℚ) := by exact_mod_cast h1
  exact mul_le_mul_of_nonneg_right this (ulp_pos x).le

theorem roundMag_mono {x y : ℚ} (hx : 0 ≤ x) (h : x ≤ y) : roundMag x ≤ roundMag y := by
  rcases eq_or_lt_of_le hx with h0 | hpos
  · rw [← h0, roundMag_zero]
    exact roundMag_nonneg (le_trans hx h)
  · have hE := exponent_mono hpos h
    rcases eq_or_lt_of_le hE with heq | hlt
    · have hu : ulp x = ulp y := by unfold ulp; rw [heq]
      unfold roundMag
      rw [hu]
      have : roundHalfEven (x / ulp y) ≤ roundHalfEven (y / ulp y) :=
        roundHalfEven_mono (div_le_div_of_nonneg_right h (ulp_pos y).le)
      have hq : (roundHalfEven (x / ulp y) : ℚ) ≤ (roundHalfEven (y / ulp y) : ℚ) := by
        exact_mod_cast this
      exact mul_le_mul_of_nonneg_right hq (ulp_pos y).le
    · calc roundMag x ≤ (2 : ℚ) ^ (exponent x + 1) := roundMag_le_two_zpow x
        _ ≤ (2 : ℚ) ^ exponent y := zpow_le_zpow_right₀ (by norm_num) (by omega)
        _ ≤ roundMag y :=
          two_zpow_le_roundMag (lt_of_lt_of_le hpos h) (by have := exponent_ge x; omega)

theorem exponent_le_of_lt {x : ℚ} {k : ℤ} (hx : 0 < x) (hk : -1074 ≤ k)
    (h : x < (2 : ℚ) ^ (53 + k)) : exponent x ≤ 52 + k := by
  have hlog : Int.log 2 x < 53 + k :=
    (Int.lt_zpow_iff_log_lt (b := 2) (by norm_num) hx).mp (by simpa using h)
  unfold exponent
  exact max_le (by omega) (by omega)

theorem roundMag_of_div_ulp_eq {x : ℚ} {n : ℤ} (h : x / ulp x = n) : roundMag x = x := by
  unfold roundMag
  rw [h, roundHalfEven_intCast, ← h]
  exact div_mul_cancel₀ x (ulp_pos x).ne'

theorem roundMag_of_representable {x : ℚ} (h : RepresentableMag x) : roundMag x = x := by
  obtain ⟨m, k, hm, hk, rfl⟩ := h
  rcases Nat.eq_zero_or_pos m with h0 | hpos
  · subst h0
    simp [roundMag_zero]
  · have hmq : (0 : ℚ) < (m : ℚ) := by exact_mod_cast hpos
    have hxpos : (0 : ℚ) < (m : ℚ) * (2 : ℚ) ^ k := mul_pos hmq (two_zpow_pos k)
    have hlt : (m : ℚ) * (2 : ℚ) ^ k < (2 : ℚ) ^ (53 + k) := by
      rw [zpow_add₀ (by norm_num)]
      have : (m : ℚ) < (2 : ℚ) ^ (53 : ℤ) := by
        have h1 : (m : ℚ) < ((2 ^ 53 : ℕ) : ℚ) := by exact_mod_cast hm
        have h2 : (((2 : ℕ) ^ 53 : ℕ) : ℚ) = (2 : ℚ) ^ (53 : ℤ) := by norm_num
        rwa [h2] at h1
      exact mul_lt_mul_of_pos_right this (two_zpow_pos k)
    have hE := exponent_le_of_lt hxpos hk hlt
    obtain ⟨n, hn⟩ := Int.eq_ofNat_of_zero_le
      (show 0 ≤ k - (exponent ((m : ℚ) * (2 : ℚ) ^ k) - 52) by omega)
    apply roundMag_of_div_ulp_eq (n := (m : ℤ) * 2 ^ n)
    unfold ulp
    rw [mul_div_assoc, ← zpow_sub₀ (by norm_num), hn]
    push_cast
    rw [zpow_natCast]

theorem roundMag_representable {x : ℚ} (hx : 0 ≤ x) : RepresentableMag (roundMag x) := by
  have hle := roundHalfEven_div_ulp_le x
  have h0 : (0 : ℤ) ≤ roundHalfEven (x / ulp x) :=
    le_roundHalfEven_of_le (by simpa using div_nonneg hx (ulp_pos x).le)
  have hE := exponent_ge x
  rcases lt_or_eq_of_le hle with hlt | heq
  · refine ⟨(roundHalfEven (x / ulp x)).toNat, exponent x - 52, by omega, by omega, ?_⟩
    unfold roundMag ulp
    congr 1
    have : ((roundHalfEven (x / ulp x)).toNat : ℤ) = roundHalfEven (x / ulp x) :=
      Int.toNat_of_nonneg h0
    exact_mod_cast this.symm
  · refine ⟨2 ^ 52, exponent x - 51, by norm_num, by omega, ?_⟩
    unfold roundMag
    rw [heq]
    push_cast
    unfold ulp
    rw [show exponent x - 51 = 1 + (exponent x - 52) by ring, zpow_add₀ (by norm_num)]
    norm_num
    ring

theorem roundMag_idem {x : ℚ} (hx : 0 ≤ x) : roundMag (roundMag x) = roundMag x :=
  roundMag_of_representable (roundMag_representable hx)

theorem representableMag_natCast {n : ℕ} (h : n ≤ 2 ^ 53) : RepresentableMag (n : ℚ) := by
  rcases lt_or_eq_of_le h with hlt | heq
  · exact ⟨n, 0, hlt, by norm_num, by simp⟩
  · exact ⟨2 ^ 52, 1, by norm_num, by norm_num, by rw [heq]; norm_num⟩

/-! ### Rounding of signed values -/

theorem roundQ_of_nonneg {q : ℚ} (h : 0 ≤ q) : roundQ q = roundMag q := by
  simp [roundQ, h]

theorem roundQ_of_nonpos {q : ℚ} (h : q ≤ 0) : roundQ q = -roundMag (-q) := by
  rcases eq_or_lt_of_le h with h0 | hneg
  · subst h0
    simp [roundQ, roundMag_zero]
  · simp [roundQ, not_le.mpr hneg]

theorem roundQ_neg (q : ℚ) : roundQ (-q) = -roundQ q := by
  rcases le_total 0 q with h | h
  · rw [roundQ_of_nonneg h, roundQ_of_nonpos (neg_nonpos.mpr h), neg_neg]
  · rw [roundQ_of_nonpos h, roundQ_of_nonneg (neg_nonneg.mpr h), neg_neg]

theorem roundQ_mono {x y : ℚ} (h : x ≤ y) : roundQ x ≤ roundQ y := by
  rcases le_total 0 x with hx | hx
  · rw [roundQ_of_nonneg hx, roundQ_of_nonneg (le_trans hx h)]
    exact roundMag_mono hx h
  · rcases le_total 0 y with hy | hy
    · rw [roundQ_of_nonpos hx, roundQ_of_nonneg hy]
      have h1 := roundMag_nonneg (neg_nonneg.mpr hx)
      have h2 := roundMag_nonneg hy
      linarith
    · rw [roundQ_of_nonpos hx, roundQ_of_nonpos hy]
      have := roundMag_mono (neg_nonneg.mpr hy) (neg_le_neg h)
      linarith

theorem roundQ_of_representable {x : ℚ} (h : RepresentableMag |x|) : roundQ x = x := by
  rcases le_total 0 x with hx | hx
  · rw [roundQ_of_nonneg hx]
    rw [abs_of_nonneg hx] at h
    exact roundMag_of_representable h
  · rw [roundQ_of_nonpos hx]
    rw [abs_of_nonpos hx] at h
    rw [roundMag_of_representable h, neg_neg]

theorem representableMag_abs_roundQ (x : ℚ) : RepresentableMag |roundQ x| := by
  rcases le_total 0 x with hx | hx
  · rw [roundQ_of_nonneg hx, abs_of_nonneg (roundMag_nonneg hx)]
    exact roundMag_representable hx
  · rw [roundQ_of_nonpos hx, abs_neg, abs_of_nonneg (roundMag_nonneg (neg_nonneg.mpr hx))]
    exact roundMag_representable (neg_nonneg.mpr hx)

theorem roundQ_idem (x : ℚ) : roundQ (roundQ x) = roundQ x :=
  roundQ_of_representable (representableMag_abs_roundQ x)

theorem roundQ_natCast {n : ℕ} (h : n ≤ 2 ^ 53) : roundQ (n : ℚ) = n :=
  roundQ_of_representable (by rw [abs_of_nonneg (by positivity)]; exact representableMag_natCast h)

theorem roundQ_zero : roundQ 0 = 0 := by
  have := roundQ_natCast (n := 0) (by norm_num)
  simpa using this

theorem roundQ_one : roundQ 1 = 1 := by
  have := roundQ_natCast (n := 1) (by norm_num)
  simpa using this

/-! ### Rounding to a double -/

theorem two_pow_1024_pos : (0 : ℚ) < (2 : ℚ) ^ 1024 := by positivity

theorem rnd_of_lt {q : ℚ} (h1 : -(2 : ℚ) ^ 1024 < roundQ q) (h2 : roundQ q < (2 : ℚ) ^ 1024) :
    rnd q = fin (roundQ q) := by
  unfold rnd
  rw [if_neg (not_le.mpr h2), if_neg (not_le.mpr h1)]

theorem rnd_of_isFinite {q : ℚ} (h : IsFinite q) : rnd q = fin q := by
  have hq := roundQ_of_representable h.1
  have habs := abs_lt.mp h.2
  have := rnd_of_lt (q := q) (by rw [hq]; exact habs.1) (by rw [hq]; exact habs.2)
  rwa [hq] at this

theorem isFinite_natCast {n : ℕ} (h : n ≤ 2 ^ 53) : IsFinite (n : ℚ) := by
  constructor
  · rw [abs_of_nonneg (by positivity)]
    exact representableMag_natCast h
  · rw [abs_of_nonneg (by positivity)]
    have h1 : (n : ℚ) ≤ ((2 ^ 53 : ℕ) : ℚ) := by exact_mod_cast h
    have h2 : (((2 : ℕ) ^ 53 : ℕ) : ℚ) < (2 : ℚ) ^ 1024 := by norm_num
    linarith

theorem rnd_natCast {n : ℕ} (h : n ≤ 2 ^ 53) : rnd (n : ℚ) = fin n :=
  rnd_of_isFinite (isFinite_natCast h)

theorem isFinite_zero : IsFinite 0 := by
  simpa using isFinite_natCast (n := 0) (by norm_num)

theorem isFinite_one : IsFinite 1 := by
  simpa using isFinite_natCast (n := 1) (by norm_num)

theorem isFinite_neg {q : ℚ} (h : IsFinite q) : IsFinite (-q) := by
  unfold IsFinite at h ⊢
  rwa [abs_neg]

theorem rnd_zero : rnd 0 = fin 0 := rnd_of_isFinite isFinite_zero

theorem rnd_one : rnd 1 = fin 1 := rnd_of_isFinite isFinite_one

/-- A result between two finite doubles is rounded to a finite double between
them. -/
theorem rnd_of_mem_Icc {q a b : ℚ} (ha : IsFinite a) (hb : IsFinite b)
    (h1 : a ≤ q) (h2 : q ≤ b) :
    rnd q = fin (roundQ q) ∧ a ≤ roundQ q ∧ roundQ q ≤ b := by
  have hqa : a ≤ roundQ q := by
    have := roundQ_mono h1
    rwa [roundQ_of_representable ha.1] at this
  have hqb : roundQ q ≤ b := by
    have := roundQ_mono h2
    rwa [roundQ_of_representable hb.1] at this
  have ha' := abs_lt.mp ha.2
  have hb' := abs_lt.mp hb.2
  exact ⟨rnd_of_lt (by linarith) (by linarith), hqa, hqb⟩

theorem isFinite_roundQ {q : ℚ} (h : rnd q = fin (roundQ q)) : IsFinite (roundQ q) := by
  refine ⟨representableMag_abs_roundQ q, ?_⟩
  unfold rnd at h
  split_ifs at h with h1 h2
  rw [abs_lt]
  exact ⟨not_le.mp h2, not_le.mp h1⟩

theorem isFinite_of_rnd_eq {q v : ℚ} (h : rnd q = fin v) : v = roundQ q ∧ IsFinite v := by
  have hv : v = roundQ q := by
    unfold rnd at h
    split_ifs at h
    exact (Double.fin.inj h).symm
  subst hv
  exact ⟨rfl, isFinite_roundQ h⟩

/-- Rounding is monotone for the C comparison `<=`. -/
theorem fle_rnd_mono {x y : ℚ} (h : x ≤ y) : fle (rnd x) (rnd y) = true := by
  have hm := roundQ_mono h
  have hp := two_pow_1024_pos
  unfold rnd
  split_ifs <;> simp only [fle, decide_eq_true_eq] <;> first | rfl | linarith

theorem fle_fin_rnd {a y : ℚ} (ha : IsFinite a) (h : a ≤ y) :
    fle (fin a) (rnd y) = true := by
  have := fle_rnd_mono h
  rwa [rnd_of_isFinite ha] at this

theorem fle_rnd_fin {x b : ℚ} (hb : IsFinite b) (h : x ≤ b) :
    fle (rnd x) (fin b) = true := by
  have := fle_rnd_mono h
  rwa [rnd_of_isFinite hb] at this

theorem flt_eq_false_of_fle {a b : Double} (h : fle a b = true) : flt b a = false := by
  cases a <;> cases b <;> simp_all [fle, flt]

/-! ### Operations on finite operands -/

theorem fadd_fin (a b : ℚ) : fadd (fin a) (fin b) = rnd (a + b) := rfl

theorem fsub_fin (a b : ℚ) : fsub (fin a) (fin b) = rnd (a - b) := by
  simp [fsub, fneg, fadd, sub_eq_add_neg]

theorem fmul_fin (a b : ℚ) : fmul (fin a) (fin b) = rnd (a * b) := rfl

theorem fdiv_fin {a b : ℚ} (hb : b ≠ 0) : fdiv (fin a) (fin b) = rnd (a / b) := by
  simp [fdiv, hb]

end Double

/-! ### Evaluation of roundings -/

namespace Double

theorem roundHalfEven_of_abs_sub_lt {x : ℚ} {n : ℤ} (h : |x - n| < 1 / 2) :
    roundHalfEven x = n := by
  have h' := abs_lt.mp h
  rcases le_or_lt (n : ℚ) x with hle | hlt
  · have hfl : ⌊x⌋ = n := Int.floor_eq_iff.mpr ⟨hle, by linarith⟩
    unfold roundHalfEven
    rw [hfl, if_pos (by linarith)]
  · have hfl : ⌊x⌋ = n - 1 := Int.floor_eq_iff.mpr ⟨by push_cast; linarith, by push_cast; linarith⟩
    unfold roundHalfEven
    rw [hfl, if_neg (by push_cast; linarith), if_pos (by push_cast; linarith)]
    omega

theorem roundHalfEven_tie_odd {x : ℚ} {f : ℤ} (h : x = f + 1 / 2) (ho : f % 2 = 1) :
    roundHalfEven x = f + 1 := by
  have hfl : ⌊x⌋ = f := Int.floor_eq_iff.mpr ⟨by linarith, by linarith⟩
  unfold roundHalfEven
  rw [hfl, if_neg (by linarith), if_neg (by linarith), if_neg (by omega)]

theorem exponent_eq {x : ℚ} {e : ℤ} (he : -1022 ≤ e) (h1 : (2 : ℚ) ^ e ≤ x)
    (h2 : x < (2 : ℚ) ^ (e + 1)) : exponent x = e := by
  have hx : 0 < x := lt_of_lt_of_le (two_zpow_pos e) h1
  have hlo : e ≤ Int.log 2 x :=
    (Int.zpow_le_iff_le_log (b := 2) (by norm_num) hx).mp (by simpa using h1)
  have hhi : Int.log 2 x < e + 1 :=
    (Int.lt_zpow_iff_log_lt (b := 2) (by norm_num) hx).mp (by simpa using h2)
  unfold exponent
  rw [max_eq_left (by omega)]
  omega

/-- Evaluation of a rounding: in the binade `[2^e, 2^(e+1))` the spacing is
`2^(e-52)`, and `x` goes to the multiple of the spacing that `roundHalfEven`
selects. -/
theorem roundQ_eval {x : ℚ} {e n : ℤ} (he : -1022 ≤ e) (h1 : (2 : ℚ) ^ e ≤ x)
    (h2 : x < (2 : ℚ) ^ (e + 1)) (hn : roundHalfEven (x / (2 : ℚ) ^ (e - 52)) = n) :
    roundQ x = (n : ℚ) * (2 : ℚ) ^ (e - 52) := by
  have hx : 0 < x := lt_of_lt_of_le (two_zpow_pos e) h1
  rw [roundQ_of_nonneg hx.le]
  unfold roundMag ulp
  rw [exponent_eq he h1 h2, hn]

end Double


/-! ## Lemmas on the loop of `e` -/

theorem e_for_exit (U : UxHw D) (N : ℕ) (rolling_sum count : D) :
    e_for U (N : ℚ) N rolling_sum count = (rolling_sum, count) := by
  rw [e_for]
  simp

theorem e_for_step (U : UxHw D) (N i : ℕ) (rolling_sum count : D) (hi : i < N) :
    e_for U (N : ℚ) i rolling_sum count
      = e_for U (N : ℚ) (i + 1) (DistributionalEstimator.step U (rolling_sum, count)).1
          (DistributionalEstimator.step U (rolling_sum, count)).2 := by
  rw [e_for]
  have h : (i : ℚ) < (N : ℚ) := by exact_mod_cast hi
  simp only [dif_pos h, DistributionalEstimator.step]
  norm_num

/-- The loop of `e()` with bound `N`, entered with counter `i`, takes `N - i`
steps. -/
theorem e_for_eq_iterate (U : UxHw D) (N : ℕ) :
    ∀ (d i : ℕ) (state : D × D), i + d = N →
      e_for U (N : ℚ) i state.1 state.2 = (DistributionalEstimator.step U)^[d] state := by
  intro d
  induction d with
  | zero =>
    intro i state hi
    have : i = N := by omega
    subst this
    simp [e_for_exit]
  | succ d ih =>
    intro i state hi
    rw [e_for_step U N i _ _ (by omega), ih (i + 1) _ (by omega), Function.iterate_succ_apply]

theorem e_eq_estimate (U : UxHw D) : e U = DistributionalEstimator.estimate U 10 := by
  unfold e DistributionalEstimator.estimate
  have h := e_for_eq_iterate U 10 10 0 (U.point 0, U.point 0) (by norm_num)
  simp only [Nat.cast_ofNat] at h
  simp only [h]


theorem iterate_step_fst (U : UxHw D) (n : ℕ) :
    ((DistributionalEstimator.step U)^[n] (U.point 0, U.point 0)).1 = sumOfUniforms U n := by
  induction n with
  | zero => rfl
  | succ n ih =>
    rw [Function.iterate_succ_apply', sumOfUniforms, ← ih]
    rfl

theorem e_rolling_sum_eq (U : UxHw D) (i : ℕ) : e_rolling_sum U i = sumOfUniforms U i := by
  unfold e_rolling_sum
  have h := e_for_eq_iterate U i i 0 (U.point 0, U.point 0) (by omega)
  simp only at h
  rw [h, iterate_step_fst]

theorem e_p_eq (U : UxHw D) (i : ℕ) :
    e_p U i = U.UxHwDoubleProbabilityGT (sumOfUniforms U i) 1 := by
  unfold e_p
  rw [e_rolling_sum_eq]
  norm_num

/-- First moment of the count after `n` steps, when the first moment is
additive, the point mass at 0 has mean 0 and `mixture(1, 0, q)` has mean `q`
for the weights `q` that occur. -/
theorem moment_iterate_step (U : UxHw D) (n : ℕ)
    (hM : ∀ i, i < n →
      U.UxHwDoubleNthMoment (U.UxHwDoubleMixture (U.point 1) (U.point 0)
        (1 - U.UxHwDoubleProbabilityGT (sumOfUniforms U i) 1)) 1
        = 1 - U.UxHwDoubleProbabilityGT (sumOfUniforms U i) 1)
    (hA : ∀ a b, U.UxHwDoubleNthMoment (U.add a b) 1
      = U.UxHwDoubleNthMoment a 1 + U.UxHwDoubleNthMoment b 1)
    (h0 : U.UxHwDoubleNthMoment (U.point 0) 1 = 0) :
    U.UxHwDoubleNthMoment ((DistributionalEstimator.step U)^[n] (U.point 0, U.point 0)).2 1
      = ∑ i in Finset.range n, (1 - U.UxHwDoubleProbabilityGT (sumOfUniforms U i) 1) := by
  induction n with
  | zero => simpa using h0
  | succ n ih =>
    rw [Function.iterate_succ_apply', Finset.sum_range_succ,
      ← ih (fun i hi => hM i (Nat.lt_succ_of_lt hi)), ← hM n (Nat.lt_succ_self n)]
    simp only [DistributionalEstimator.step]
    rw [hA, iterate_step_fst]

theorem sumOfUniforms_uniformSums (i : ℕ) :
    sumOfUniforms uniformSums i = ((i : ℚ) / 2, i) := by
  induction i with
  | zero => simp [sumOfUniforms, uniformSums]
  | succ i ih =>
    rw [sumOfUniforms, ih]
    simp only [uniformSums]
    refine Prod.ext ?_ rfl
    push_cast
    ring

theorem sum_inv_factorial_ten :
    ∑ i in Finset.range 10, (1 : ℚ) / (i.factorial : ℚ) = 98641 / 36288 := by
  simp only [Finset.sum_range_succ, Finset.sum_range_zero, Nat.factorial]
  norm_num

/-! ## Lemmas on the uncertain-value substrate -/

namespace UncertainValue

theorem totalWeight_append (a b : UncertainValue) :
    totalWeight (a ++ b) = totalWeight a + totalWeight b := by
  simp [totalWeight]

theorem totalWeight_reweight (c : ℚ) (a : UncertainValue) :
    totalWeight (reweight c a) = c * totalWeight a := by
  induction a with
  | nil => simp [totalWeight, reweight]
  | cons x a ih =>
    simp only [totalWeight, reweight, List.map_cons, List.sum_cons] at ih ⊢
    rw [ih]
    ring

theorem expectation_append (a b : UncertainValue) (f : ℚ → ℚ) :
    expectation (a ++ b) f = expectation a f + expectation b f := by
  simp [expectation]

theorem expectation_reweight (c : ℚ) (a : UncertainValue) (f : ℚ → ℚ) :
    expectation (reweight c a) f = c * expectation a f := by
  induction a with
  | nil => simp [expectation, reweight]
  | cons x a ih =>
    simp only [expectation, reweight, List.map_cons, List.sum_cons] at ih ⊢
    rw [ih]
    ring

theorem expectation_map_div (w : ℚ) (a : UncertainValue) (f : ℚ → ℚ) :
    expectation (a.map (fun x => (x.1, x.2 / w))) f = expectation a f / w := by
  induction a with
  | nil => simp [expectation]
  | cons x a ih =>
    simp only [expectation, List.map_cons, List.sum_cons] at ih ⊢
    rw [ih]
    ring

/-- The mixture law: on valid ensembles every statistic of the mixture is the
weighted combination of the statistics of the two inputs. -/
theorem expectation_mixture (a b : UncertainValue) (p : ℚ) (f : ℚ → ℚ)
    (ha : totalWeight a = 1) (hb : totalWeight b = 1) :
    expectation (mixture a b p) f = p * expectation a f + (1 - p) * expectation b f := by
  unfold mixture renormalize
  rw [expectation_map_div, totalWeight_append, totalWeight_reweight, totalWeight_reweight,
    ha, hb, expectation_append, expectation_reweight, expectation_reweight]
  norm_num

theorem valid_valueConcentratedAt (v : ℚ) : Valid (valueConcentratedAt v) := by
  constructor
  · intro x hx
    simp only [valueConcentratedAt, List.mem_singleton] at hx
    rw [hx]
    norm_num
  · simp [totalWeight, valueConcentratedAt]

end UncertainValue

/-! ## The distributional estimator -/

/-- C4. For any interpretation of the UxHw primitives, `e()` computes the
fold that the specification describes: from `(sum, count) = (0, 0)` it takes
exactly 10 steps, each setting `p = probabilityGreaterThan(sum, 1.0)` on the
sum from before the step's draw, then `count := count + mixture(1, 0, 1 - p)`
and `sum := sum + uniform(0, 1)`, and it returns `nthMoment(count, 1)`. -/
theorem e_refines_estimate (U : UxHw D) :
    e U = DistributionalEstimator.estimate U 10
      ∧ e U = U.UxHwDoubleNthMoment
          ((DistributionalEstimator.step U)^[10] (U.point 0, U.point 0)).2 1
      ∧ ∀ sum count : D, DistributionalEstimator.step U (sum, count)
          = (U.add sum (U.UxHwDoubleUniformDist 0 1),
              U.add count (U.UxHwDoubleMixture (U.point 1) (U.point 0)
                (1 - U.UxHwDoubleProbabilityGT sum 1.0))) := by
  refine ⟨e_eq_estimate U, e_eq_estimate U, ?_⟩
  intro sum count
  simp only [DistributionalEstimator.step]
  norm_num

/-- C5. When the primitives have their exact meaning (the probability that
the sum of `i` independent `Uniform(0, 1)` draws exceeds 1 is `1 - 1/i!`, for
the sums of 0 to 9 draws that occur; the mean of `mixture(1, 0, q)` is `q`
for a probability `q`; the mean of a sum is the sum of the means; the point
mass at 0 has mean 0), the value returned by `e()` is the sum of `1/i!` for
`i = 0..9`, and it lies in `[2.6, 2.85]`. -/
theorem e_exact_value (U : UxHw D)
    (hP : ∀ i, i < 10 →
      U.UxHwDoubleProbabilityGT (sumOfUniforms U i) 1 = 1 - 1 / (i.factorial : ℚ))
    (hM : ∀ q, 0 ≤ q → q ≤ 1 →
      U.UxHwDoubleNthMoment (U.UxHwDoubleMixture (U.point 1) (U.point 0) q) 1 = q)
    (hA : ∀ a b, U.UxHwDoubleNthMoment (U.add a b) 1
      = U.UxHwDoubleNthMoment a 1 + U.UxHwDoubleNthMoment b 1)
    (h0 : U.UxHwDoubleNthMoment (U.point 0) 1 = 0) :
    e U = ∑ i in Finset.range 10, (1 : ℚ) / (i.factorial : ℚ)
      ∧ (2.6 : ℚ) ≤ e U ∧ e U ≤ (2.85 : ℚ) := by
  have hq : ∀ i, i < 10 →
      1 - U.UxHwDoubleProbabilityGT (sumOfUniforms U i) 1 = 1 / (i.factorial : ℚ) := by
    intro i hi
    rw [hP i hi]
    ring
  have hq01 : ∀ i : ℕ, (0 : ℚ) ≤ 1 / (i.factorial : ℚ) ∧ 1 / (i.factorial : ℚ) ≤ 1 := by
    intro i
    have h1 : (1 : ℚ) ≤ (i.factorial : ℚ) := by exact_mod_cast Nat.factorial_pos i
    exact ⟨by positivity, by rw [div_le_one (by linarith)]; exact h1⟩
  have hval : e U = ∑ i in Finset.range 10, (1 : ℚ) / (i.factorial : ℚ) := by
    rw [e_eq_estimate]
    unfold DistributionalEstimator.estimate
    rw [moment_iterate_step U 10
      (fun i hi => by rw [hq i hi]; exact hM _ (hq01 i).1 (hq01 i).2) hA h0]
    exact Finset.sum_congr rfl (fun i hi => hq i (Finset.mem_range.mp hi))
  refine ⟨hval, ?_, ?_⟩
  · rw [hval, sum_inv_factorial_ten]; norm_num
  · rw [hval, sum_inv_factorial_ten]; norm_num

theorem e_exact_value_witness :
    (∀ i, i < 10 → uniformSums.UxHwDoubleProbabilityGT (sumOfUniforms uniformSums i) 1
        = 1 - 1 / (i.factorial : ℚ))
    ∧ (e uniformSums = ∑ i in Finset.range 10, (1 : ℚ) / (i.factorial : ℚ)
      ∧ (2.6 : ℚ) ≤ e uniformSums ∧ e uniformSums ≤ (2.85 : ℚ)) :=
  have hP : ∀ i, i < 10 → uniformSums.UxHwDoubleProbabilityGT (sumOfUniforms uniformSums i) 1
      = 1 - 1 / (i.factorial : ℚ) := by
    intro i _
    rw [sumOfUniforms_uniformSums]
    rfl
  ⟨hP, e_exact_value uniformSums hP
    (by intro q _ _; simp [uniformSums])
    (by intro a b; rfl)
    (by rfl)⟩

/-- C10. Under any interpretation in which `UxHwDoubleProbabilityGT` returns
a value in `[0, 1]`, the mean of `mixture(1, 0, q)` is `q` for a probability
`q`, the first moment is additive over `+` (and the point mass at 0 has mean
0), the value returned by `e()` is the sum over its 10 passes of `1 - p_i`,
`p_i` being the probability computed in pass `i`; hence it lies in `[0, 10]`,
and it is at least 1 when the point mass at 0 has probability 0 of
exceeding 1. -/
theorem e_eq_sum_complements (U : UxHw D)
    (hP : ∀ x t, 0 ≤ U.UxHwDoubleProbabilityGT x t ∧ U.UxHwDoubleProbabilityGT x t ≤ 1)
    (hM : ∀ q, 0 ≤ q → q ≤ 1 →
      U.UxHwDoubleNthMoment (U.UxHwDoubleMixture (U.point 1) (U.point 0) q) 1 = q)
    (hA : ∀ a b, U.UxHwDoubleNthMoment (U.add a b) 1
      = U.UxHwDoubleNthMoment a 1 + U.UxHwDoubleNthMoment b 1)
    (h0 : U.UxHwDoubleNthMoment (U.point 0) 1 = 0) :
    e U = ∑ i in Finset.range 10, (1 - e_p U i)
      ∧ 0 ≤ e U ∧ e U ≤ 10
      ∧ (U.UxHwDoubleProbabilityGT (U.point 0) 1.0 = 0 → 1 ≤ e U) := by
  have hval : e U = ∑ i in Finset.range 10, (1 - e_p U i) := by
    rw [e_eq_estimate]
    unfold DistributionalEstimator.estimate
    rw [moment_iterate_step U 10
      (fun i _ => hM _ (by linarith [(hP (sumOfUniforms U i) 1).2])
        (by linarith [(hP (sumOfUniforms U i) 1).1])) hA h0]
    exact Finset.sum_congr rfl (fun i _ => by rw [e_p_eq])
  have hterm : ∀ i, 0 ≤ 1 - e_p U i ∧ 1 - e_p U i ≤ 1 := by
    intro i
    have := hP (e_rolling_sum U i) 1.0
    unfold e_p
    constructor <;> linarith [this.1, this.2]
  refine ⟨hval, ?_, ?_, ?_⟩
  · rw [hval]
    exact Finset.sum_nonneg (fun i _ => (hterm i).1)
  · rw [hval]
    calc ∑ i in Finset.range 10, (1 - e_p U i)
        ≤ ∑ _i in Finset.range 10, (1 : ℚ) := Finset.sum_le_sum (fun i _ => (hterm i).2)
      _ = 10 := by simp
  · intro hp0
    rw [hval, Finset.sum_range_succ']
    have h00 : e_p U 0 = 0 := by
      rw [e_p_eq]
      have : sumOfUniforms U 0 = U.point 0 := rfl
      rw [this]
      norm_num at hp0
      exact hp0
    rw [h00]
    have : 0 ≤ ∑ k in Finset.range 9, (1 - e_p U (k + 1)) :=
      Finset.sum_nonneg (fun i _ => (hterm (i + 1)).1)
    linarith


theorem e_eq_sum_complements_witness :
    (∀ x t, 0 ≤ uniformSums.UxHwDoubleProbabilityGT x t
        ∧ uniformSums.UxHwDoubleProbabilityGT x t ≤ 1)
    ∧ (e uniformSums = ∑ i in Finset.range 10, (1 - e_p uniformSums i)
      ∧ 0 ≤ e uniformSums ∧ e uniformSums ≤ 10
      ∧ (uniformSums.UxHwDoubleProbabilityGT (uniformSums.point 0) 1.0 = 0 →
          1 ≤ e uniformSums)) :=
  have hP : ∀ x t, 0 ≤ uniformSums.UxHwDoubleProbabilityGT x t
      ∧ uniformSums.UxHwDoubleProbabilityGT x t ≤ 1 := by
    intro x t
    have h1 : (1 : ℚ) ≤ (x.2.factorial : ℚ) := by exact_mod_cast Nat.factorial_pos x.2
    have h2 : (0 : ℚ) ≤ 1 / (x.2.factorial : ℚ) := by positivity
    have h3 : 1 / (x.2.factorial : ℚ) ≤ 1 := by rw [div_le_one (by linarith)]; exact h1
    simp only [uniformSums]
    constructor <;> linarith
  ⟨hP, e_eq_sum_complements uniformSums hP
    (by intro q _ _; simp [uniformSums])
    (by intro a b; rfl)
    (by rfl)⟩

/-! ## The mixture of the specification -/

/-- C7. For all valid uncertain values `a` and `b`, `mixture(a, b, 1.0)` is
the same distribution as `a` and `mixture(a, b, 0.0)` is the same
distribution as `b`. In particular the increment `mixture(1, 0, 1 - p)` used
by `e()` is the point mass at 1 when `p = 0` and the point mass at 0 when
`p = 1`. -/
theorem mixture_one_zero (a b : UncertainValue)
    (ha : UncertainValue.Valid a) (hb : UncertainValue.Valid b) :
    UncertainValue.SameDistribution (UncertainValue.mixture a b 1.0) a
      ∧ UncertainValue.SameDistribution (UncertainValue.mixture a b 0.0) b
      ∧ UncertainValue.SameDistribution
          (UncertainValue.mixture (UncertainValue.valueConcentratedAt 1)
            (UncertainValue.valueConcentratedAt 0) (1 - 0))
          (UncertainValue.valueConcentratedAt 1)
      ∧ UncertainValue.SameDistribution
          (UncertainValue.mixture (UncertainValue.valueConcentratedAt 1)
            (UncertainValue.valueConcentratedAt 0) (1 - 1))
          (UncertainValue.valueConcentratedAt 0) := by
  have h1 := UncertainValue.valid_valueConcentratedAt 1
  have h0 := UncertainValue.valid_valueConcentratedAt 0
  refine ⟨?_, ?_, ?_, ?_⟩
  · intro f
    rw [UncertainValue.expectation_mixture a b _ f ha.2 hb.2]
    norm_num
  · intro f
    rw [UncertainValue.expectation_mixture a b _ f ha.2 hb.2]
    norm_num
  · intro f
    rw [UncertainValue.expectation_mixture _ _ _ f h1.2 h0.2]
    norm_num
  · intro f
    rw [UncertainValue.expectation_mixture _ _ _ f h1.2 h0.2]
    norm_num

theorem mixture_one_zero_witness :
    (UncertainValue.Valid [(0, 1 / 4), (1 / 2, 3 / 4)] ∧ UncertainValue.Valid [(2, 1)])
    ∧ (UncertainValue.SameDistribution
          (UncertainValue.mixture [(0, 1 / 4), (1 / 2, 3 / 4)] [(2, 1)] 1.0)
          [(0, 1 / 4), (1 / 2, 3 / 4)]
      ∧ UncertainValue.SameDistribution
          (UncertainValue.mixture [(0, 1 / 4), (1 / 2, 3 / 4)] [(2, 1)] 0.0) [(2, 1)]
      ∧ UncertainValue.SameDistribution
          (UncertainValue.mixture (UncertainValue.valueConcentratedAt 1)
            (UncertainValue.valueConcentratedAt 0) (1 - 0))
          (UncertainValue.valueConcentratedAt 1)
      ∧ UncertainValue.SameDistribution
          (UncertainValue.mixture (UncertainValue.valueConcentratedAt 1)
            (UncertainValue.valueConcentratedAt 0) (1 - 1))
          (UncertainValue.valueConcentratedAt 0)) :=
  have ha : UncertainValue.Valid [(0, 1 / 4), (1 / 2, 3 / 4)] := by
    constructor
    · intro x hx
      simp only [List.mem_cons, List.mem_singleton, List.not_mem_nil, or_false] at hx
      rcases hx with rfl | rfl <;> norm_num
    · norm_num [UncertainValue.totalWeight]
  have hb : UncertainValue.Valid [(2, 1)] := by
    constructor
    · intro x hx
      simp only [List.mem_singleton] at hx
      rw [hx]
      norm_num
    · norm_num [UncertainValue.totalWeight]
  ⟨⟨ha, hb⟩, mixture_one_zero _ _ ha hb⟩

/-! ## Lemmas on `sample_uniform` -/

open Double

/-- The scale factor `s` of `sample_uniform`: the double nearest to
`r / RAND_MAX`, between 0 and 1. -/
theorem scale_eq (RAND_MAX r : ℕ) (hRM : 0 < RAND_MAX) (hRM53 : RAND_MAX < 2 ^ 53)
    (hr : r ≤ RAND_MAX) :
    fdiv (ofNat r) (ofNat RAND_MAX) = fin (roundQ ((r : ℚ) / (RAND_MAX : ℚ)))
      ∧ 0 ≤ roundQ ((r : ℚ) / (RAND_MAX : ℚ))
      ∧ roundQ ((r : ℚ) / (RAND_MAX : ℚ)) ≤ 1
      ∧ IsFinite (roundQ ((r : ℚ) / (RAND_MAX : ℚ))) := by
  have hRMq : (0 : ℚ) < (RAND_MAX : ℚ) := by exact_mod_cast hRM
  have h0 : (0 : ℚ) ≤ (r : ℚ) / (RAND_MAX : ℚ) := by positivity
  have h1 : (r : ℚ) / (RAND_MAX : ℚ) ≤ 1 := by
    rw [div_le_one hRMq]
    exact_mod_cast hr
  obtain ⟨hfin, hlo, hhi⟩ := rnd_of_mem_Icc isFinite_zero isFinite_one h0 h1
  refine ⟨?_, hlo, hhi, isFinite_roundQ hfin⟩
  unfold ofNat
  rw [rnd_natCast (by omega), rnd_natCast (by omega), fdiv_fin hRMq.ne', hfin]

theorem scale_eq_one (RAND_MAX : ℕ) (hRM : 0 < RAND_MAX) (hRM53 : RAND_MAX < 2 ^ 53) :
    fdiv (ofNat RAND_MAX) (ofNat RAND_MAX) = fin 1 := by
  have hRMq : (RAND_MAX : ℚ) ≠ 0 := by exact_mod_cast hRM.ne'
  rw [(scale_eq RAND_MAX RAND_MAX hRM hRM53 (le_refl _)).1, div_self hRMq, roundQ_one]

/-- On `(0, 1)` the sampler returns its scale factor: the double nearest to
`r / RAND_MAX`. -/
theorem sample_uniform_zero_one (RAND_MAX r : ℕ) (hRM : 0 < RAND_MAX)
    (hRM53 : RAND_MAX < 2 ^ 53) (hr : r ≤ RAND_MAX) :
    sample_uniform RAND_MAX r (fin 0) (fin 1) = fin (roundQ ((r : ℚ) / (RAND_MAX : ℚ))) := by
  obtain ⟨hs, _, _, hsf⟩ := scale_eq RAND_MAX r hRM hRM53 hr
  unfold sample_uniform
  simp only [hs, fsub_fin, sub_zero, rnd_one, fmul_fin, mul_one, rnd_of_isFinite hsf,
    fadd_fin, add_zero]

/-- A finite difference of two finite doubles is the double nearest to the
exact difference. -/
theorem fsub_eq_fin {a b d : ℚ} (hd : fsub (fin a) (fin b) = fin d) :
    d = roundQ (a - b) ∧ IsFinite d := by
  rw [fsub_fin] at hd
  exact isFinite_of_rnd_eq hd

/-- The product `s * (max - min)` of `sample_uniform`, for a scale factor
`0 ≤ s ≤ 1` and a finite difference `d`: a finite double between 0 and `d`. -/
theorem fmul_scale {s d : ℚ} (hs0 : 0 ≤ s) (hs1 : s ≤ 1) (hd : IsFinite d) :
    fmul (fin s) (fin d) = fin (roundQ (s * d))
      ∧ min 0 d ≤ roundQ (s * d) ∧ roundQ (s * d) ≤ max 0 d := by
  rw [fmul_fin]
  rcases le_total 0 d with h | h
  · rw [min_eq_left h, max_eq_right h]
    exact rnd_of_mem_Icc isFinite_zero hd (mul_nonneg hs0 h)
      (by nlinarith [mul_nonneg (sub_nonneg.mpr hs1) h])
  · rw [min_eq_right h, max_eq_left h]
    exact rnd_of_mem_Icc hd isFinite_zero
      (by nlinarith [mul_nonneg (sub_nonneg.mpr hs1) (neg_nonneg.mpr h)])
      (by nlinarith [mul_nonneg hs0 (neg_nonneg.mpr h)])

/-! ## Lemmas on the loops of `simple_e` -/

theorem sumFrom_shift (RAND_MAX : ℕ) (rand : ℕ → ℕ) (s : Double) (pos : ℕ) :
    ∀ k, sumFrom RAND_MAX rand s pos (k + 1)
      = sumFrom RAND_MAX rand (fadd s (draw RAND_MAX rand pos)) (pos + 1) k := by
  intro k
  induction k with
  | zero => simp [sumFrom]
  | succ k ih =>
    rw [sumFrom, ih, sumFrom]
    congr 2
    omega

theorem countFrom_shift (c : Double) :
    ∀ k, countFrom c (k + 1) = countFrom (fadd c (fin 1)) k := by
  intro k
  induction k with
  | zero => simp [countFrom]
  | succ k ih => rw [countFrom, ih, countFrom]

/-- With enough fuel the loop started in state `(rolling_sum, count, pos)` ends
after `k` further draws, `k` being the first number of draws after which the
rolling sum is no longer below 1. -/
theorem simple_e_while_of_stops (RAND_MAX : ℕ) (rand : ℕ → ℕ) :
    ∀ (k fuel : ℕ) (rolling_sum count : Double) (pos : ℕ), k ≤ fuel →
      flt (sumFrom RAND_MAX rand rolling_sum pos k) (fin 1) = false →
      (∀ j, j < k → flt (sumFrom RAND_MAX rand rolling_sum pos j) (fin 1) = true) →
      simple_e_while RAND_MAX rand fuel rolling_sum count pos
        = some (sumFrom RAND_MAX rand rolling_sum pos k, countFrom count k, pos + k) := by
  intro k
  induction k with
  | zero =>
    intro fuel rs c pos _ h1 _
    simp only [sumFrom] at h1
    cases fuel <;> simp [simple_e_while, h1, sumFrom, countFrom]
  | succ k ih =>
    intro fuel rs c pos hf h1 hlt
    obtain ⟨f, rfl⟩ : ∃ f, fuel = f + 1 := ⟨fuel - 1, by omega⟩
    have h0 : flt rs (fin 1) = true := by
      have := hlt 0 (Nat.succ_pos k)
      simpa [sumFrom] using this
    simp only [simple_e_while, h0, if_true]
    have hd : sample_uniform RAND_MAX (rand pos) (fin 0) (fin 1) = draw RAND_MAX rand pos := rfl
    rw [hd, ih f (fadd rs (draw RAND_MAX rand pos)) (fadd c (fin 1)) (pos + 1) (by omega)
      (by rw [← sumFrom_shift]; exact h1)
      (by
        intro j hj
        rw [← sumFrom_shift]
        exact hlt (j + 1) (by omega)),
      ← sumFrom_shift, ← countFrom_shift]
    have hpos : pos + 1 + k = pos + (k + 1) := by omega
    rw [hpos]

/-- Whenever the loop returns, it has consumed the first number of draws after
which the rolling sum is no longer below 1. -/
theorem simple_e_while_some (RAND_MAX : ℕ) (rand : ℕ → ℕ) :
    ∀ (fuel : ℕ) (rolling_sum count : Double) (pos : ℕ) (r : Double × Double × ℕ),
      simple_e_while RAND_MAX rand fuel rolling_sum count pos = some r →
      ∃ k, k ≤ fuel ∧
        r = (sumFrom RAND_MAX rand rolling_sum pos k, countFrom count k, pos + k) ∧
        flt (sumFrom RAND_MAX rand rolling_sum pos k) (fin 1) = false ∧
        ∀ j, j < k → flt (sumFrom RAND_MAX rand rolling_sum pos j) (fin 1) = true := by
  intro fuel
  induction fuel with
  | zero =>
    intro rs c pos r h
    cases h0 : flt rs (fin 1) with
    | true => simp [simple_e_while, h0] at h
    | false =>
      simp only [simple_e_while, h0, Bool.false_eq_true, if_false, Option.some.injEq] at h
      exact ⟨0, le_refl _, by simp [sumFrom, countFrom, ← h], by
        simpa [sumFrom] using h0, by intro j hj; omega⟩
  | succ f ih =>
    intro rs c pos r h
    cases h0 : flt rs (fin 1) with
    | true =>
      simp only [simple_e_while, h0, if_true] at h
      obtain ⟨k, hk, hr, h1, hlt⟩ := ih _ _ _ _ h
      have hd : sample_uniform RAND_MAX (rand pos) (fin 0) (fin 1)
          = draw RAND_MAX rand pos := rfl
      rw [hd] at hr h1 hlt
      rw [← sumFrom_shift] at hr h1
      rw [← countFrom_shift] at hr
      have hpos : pos + 1 + k = pos + (k + 1) := by omega
      refine ⟨k + 1, by omega, ?_, h1, ?_⟩
      · rw [hr, hpos]
      · intro j hj
        cases j with
        | zero => simpa [sumFrom] using h0
        | succ j =>
          have := hlt j (by omega)
          rwa [← sumFrom_shift] at this
    | false =>
      simp only [simple_e_while, h0, Bool.false_eq_true, if_false, Option.some.injEq] at h
      exact ⟨0, Nat.zero_le _, by simp [sumFrom, countFrom, ← h], by
        simpa [sumFrom] using h0, by intro j hj; omega⟩

/-- A repetition: the loop started from rolling sum 0 and count 0. -/
theorem simple_e_while_repetition (RAND_MAX : ℕ) (rand : ℕ → ℕ) (k fuel pos : ℕ)
    (hf : k ≤ fuel) (hs : StopsAfter RAND_MAX rand pos k) :
    simple_e_while RAND_MAX rand fuel (fin 0) (fin 0) pos
      = some (partialSum RAND_MAX rand pos k, recordedCount k, pos + k) :=
  simple_e_while_of_stops RAND_MAX rand k fuel (fin 0) (fin 0) pos hf
    (flt_eq_false_of_fle hs.1) hs.2

theorem simple_e_while_repetition_some (RAND_MAX : ℕ) (rand : ℕ → ℕ) (fuel pos : ℕ)
    (r : Double × Double × ℕ)
    (h : simple_e_while RAND_MAX rand fuel (fin 0) (fin 0) pos = some r) :
    ∃ k, k ≤ fuel ∧ 1 ≤ k ∧
      r = (partialSum RAND_MAX rand pos k, recordedCount k, pos + k) ∧
      flt (partialSum RAND_MAX rand pos k) (fin 1) = false ∧
      ∀ j, j < k → flt (partialSum RAND_MAX rand pos j) (fin 1) = true := by
  obtain ⟨k, hk, hr, h1, hlt⟩ := simple_e_while_some RAND_MAX rand fuel _ _ pos r h
  refine ⟨k, hk, ?_, hr, h1, hlt⟩
  rcases Nat.eq_zero_or_pos k with rfl | hpos
  · simp [sumFrom, flt] at h1
  · exact hpos

theorem StopsAfter.pos {RAND_MAX : ℕ} {rand : ℕ → ℕ} {pos k : ℕ}
    (h : StopsAfter RAND_MAX rand pos k) : 1 ≤ k := by
  rcases Nat.eq_zero_or_pos k with rfl | hk
  · have := h.1
    norm_num [partialSum, sumFrom, fle] at this
  · exact hk

theorem StopsAfter.eq_of_stops {RAND_MAX : ℕ} {rand : ℕ → ℕ} {pos k k' : ℕ}
    (h : StopsAfter RAND_MAX rand pos k)
    (h1 : flt (partialSum RAND_MAX rand pos k') (fin 1) = false)
    (h2 : ∀ j, j < k' → flt (partialSum RAND_MAX rand pos j) (fin 1) = true) : k' = k := by
  rcases Nat.lt_trichotomy k' k with hlt | heq | hgt
  · rw [h.2 k' hlt] at h1
    exact absurd h1 (by simp)
  · exact heq
  · have := h2 k hgt
    rw [flt_eq_false_of_fle h.1] at this
    exact absurd this (by simp)

theorem isFinite_two : IsFinite 2 := by
  simpa using isFinite_natCast (n := 2) (by norm_num)

theorem isFinite_two_pow53 : IsFinite ((2 : ℚ) ^ 53) := by
  have := isFinite_natCast (n := 2 ^ 53) (le_refl _)
  simpa using this

theorem recordedCount_eq {k : ℕ} (h : k ≤ 2 ^ 53) : recordedCount k = fin (k : ℚ) := by
  induction k with
  | zero => simp [recordedCount, countFrom]
  | succ k ih =>
    unfold recordedCount at ih ⊢
    rw [countFrom, ih (by omega), fadd_fin]
    have := rnd_natCast (n := k + 1) h
    push_cast at this ⊢
    exact this

theorem totalAfter_eq (counts : ℕ → ℕ) :
    ∀ i, ∑ j in Finset.range i, counts j ≤ 2 ^ 53 →
      totalAfter counts i = fin ((∑ j in Finset.range i, counts j : ℕ) : ℚ) := by
  intro i
  induction i with
  | zero => intro _; simp [totalAfter]
  | succ i ih =>
    intro h
    rw [Finset.sum_range_succ] at h
    rw [totalAfter, ih (by omega), recordedCount_eq (by omega), fadd_fin,
      Finset.sum_range_succ]
    have := rnd_natCast (n := ∑ j in Finset.range i, counts j + counts i) h
    push_cast at this ⊢
    exact this

theorem startOf_succ (counts : ℕ → ℕ) (i : ℕ) :
    startOf counts (i + 1) = startOf counts i + counts i := by
  simp [startOf, Finset.sum_range_succ]

theorem simple_e_for_exit (RAND_MAX : ℕ) (rand : ℕ → ℕ) (fuel N : ℕ) (total : Double)
    (pos : ℕ) :
    simple_e_for RAND_MAX rand fuel (N : ℚ) N total pos = some (total, pos) := by
  rw [simple_e_for]
  simp

theorem simple_e_for_step (RAND_MAX : ℕ) (rand : ℕ → ℕ) (fuel N i : ℕ) (total : Double)
    (pos : ℕ) (hi : i < N) :
    simple_e_for RAND_MAX rand fuel (N : ℚ) i total pos
      = match simple_e_while RAND_MAX rand fuel (fin 0) (fin 0) pos with
        | none => none
        | some (_, count, pos) =>
          simple_e_for RAND_MAX rand fuel (N : ℚ) (i + 1) (fadd total count) pos := by
  rw [simple_e_for]
  have h : (i : ℚ) < (N : ℚ) := by exact_mod_cast hi
  simp only [dif_pos h]

/-- With enough fuel for every repetition, the `for` loop adds up the recorded
counts of the repetitions. -/
theorem simple_e_for_of_stops (RAND_MAX : ℕ) (rand : ℕ → ℕ) (fuel N : ℕ) (counts : ℕ → ℕ)
    (hs : ∀ i, i < N → StopsAfter RAND_MAX rand (startOf counts i) (counts i))
    (hf : ∀ i, i < N → counts i ≤ fuel) :
    ∀ (d i : ℕ), i + d = N →
      simple_e_for RAND_MAX rand fuel (N : ℚ) i (totalAfter counts i) (startOf counts i)
        = some (totalAfter counts N, startOf counts N) := by
  intro d
  induction d with
  | zero =>
    intro i hi
    have : i = N := by omega
    subst this
    exact simple_e_for_exit _ _ _ _ _ _
  | succ d ih =>
    intro i hi
    have hlt : i < N := by omega
    rw [simple_e_for_step _ _ _ _ _ _ _ hlt,
      simple_e_while_repetition RAND_MAX rand (counts i) fuel _ (hf i hlt) (hs i hlt)]
    simp only
    rw [← startOf_succ]
    exact ih (i + 1) (by omega)

/-- Whatever the fuel, a run of the `for` loop that returns has added up the
recorded counts of the repetitions. -/
theorem simple_e_for_some_of_stops (RAND_MAX : ℕ) (rand : ℕ → ℕ) (fuel N : ℕ)
    (counts : ℕ → ℕ)
    (hs : ∀ i, i < N → StopsAfter RAND_MAX rand (startOf counts i) (counts i)) :
    ∀ (d i : ℕ) (r : Double × ℕ), i + d = N →
      simple_e_for RAND_MAX rand fuel (N : ℚ) i (totalAfter counts i) (startOf counts i)
        = some r →
      r = (totalAfter counts N, startOf counts N) := by
  intro d
  induction d with
  | zero =>
    intro i r hi h
    have : i = N := by omega
    subst this
    rw [simple_e_for_exit] at h
    exact (Option.some.inj h).symm
  | succ d ih =>
    intro i r hi h
    have hlt : i < N := by omega
    rw [simple_e_for_step _ _ _ _ _ _ _ hlt] at h
    cases hw : simple_e_while RAND_MAX rand fuel (fin 0) (fin 0) (startOf counts i) with
    | none => rw [hw] at h; simp at h
    | some w =>
      obtain ⟨k, _, _, rfl, h1, h2⟩ :=
        simple_e_while_repetition_some RAND_MAX rand fuel _ w hw
      have hkc : k = counts i := (hs i hlt).eq_of_stops h1 h2
      subst hkc
      rw [hw] at h
      simp only at h
      rw [← startOf_succ] at h
      exact ih (i + 1) r (by omega) h

theorem draw_nearOne_0 :
    roundQ ((2038811262 : ℚ) / 2147483647) = 8551394235433701 * (2 : ℚ) ^ (-53 : ℤ) := by
  have h := roundQ_eval (x := (2038811262 : ℚ) / 2147483647) (e := -1)
    (n := 8551394235433701) (by norm_num) (by norm_num) (by norm_num)
    (roundHalfEven_of_abs_sub_lt (by rw [abs_lt]; constructor <;> norm_num))
  rw [h]
  norm_num

theorem draw_nearOne_1 :
    roundQ ((49937088 : ℚ) / 2147483647) = 6702442497417132 * (2 : ℚ) ^ (-58 : ℤ) := by
  have h := roundQ_eval (x := (49937088 : ℚ) / 2147483647) (e := -6)
    (n := 6702442497417132) (by norm_num) (by norm_num) (by norm_num)
    (roundHalfEven_of_abs_sub_lt (by rw [abs_lt]; constructor <;> norm_num))
  rw [h]
  norm_num

theorem draw_nearOne_2 :
    roundQ ((58735297 : ℚ) / 2147483647) = 7883318120416172 * (2 : ℚ) ^ (-58 : ℤ) := by
  have h := roundQ_eval (x := (58735297 : ℚ) / 2147483647) (e := -6)
    (n := 7883318120416172) (by norm_num) (by norm_num) (by norm_num)
    (roundHalfEven_of_abs_sub_lt (by rw [abs_lt]; constructor <;> norm_num))
  rw [h]
  norm_num

theorem sum_nearOne_2 :
    roundQ (8551394235433701 * (2 : ℚ) ^ (-53 : ℤ) + 6702442497417132 * (2 : ℚ) ^ (-58 : ℤ))
      = 8760845563477986 * (2 : ℚ) ^ (-53 : ℤ) := by
  have h := roundQ_eval
    (x := 8551394235433701 * (2 : ℚ) ^ (-53 : ℤ) + 6702442497417132 * (2 : ℚ) ^ (-58 : ℤ))
    (e := -1) (n := 8760845563477986) (by norm_num) (by norm_num) (by norm_num)
    (roundHalfEven_of_abs_sub_lt (by rw [abs_lt]; constructor <;> norm_num))
  rw [h]
  norm_num

theorem sum_nearOne_3 :
    roundQ (8760845563477986 * (2 : ℚ) ^ (-53 : ℤ) + 7883318120416172 * (2 : ℚ) ^ (-58 : ℤ))
      = 9007199254740991 * (2 : ℚ) ^ (-53 : ℤ) := by
  have h := roundQ_eval
    (x := 8760845563477986 * (2 : ℚ) ^ (-53 : ℤ) + 7883318120416172 * (2 : ℚ) ^ (-58 : ℤ))
    (e := -1) (n := 9007199254740991) (by norm_num) (by norm_num) (by norm_num)
    (roundHalfEven_of_abs_sub_lt (by rw [abs_lt]; constructor <;> norm_num))
  rw [h]
  norm_num

theorem sum_nearOne_4 :
    roundQ (9007199254740991 * (2 : ℚ) ^ (-53 : ℤ) + 1) = 2 := by
  have h := roundQ_eval (x := 9007199254740991 * (2 : ℚ) ^ (-53 : ℤ) + 1) (e := 0)
    (n := 9007199254740992) (by norm_num) (by norm_num) (by norm_num)
    (roundHalfEven_tie_odd (f := 9007199254740991) (by norm_num) (by norm_num))
  rw [h]
  norm_num

/-! ## The sampler -/

theorem isFinite_of_mag {m : ℕ} {k : ℤ} (hm : m < 2 ^ 53) (hk : -1074 ≤ k)
    (hlt : (m : ℚ) * (2 : ℚ) ^ k < (2 : ℚ) ^ 1024) : IsFinite ((m : ℚ) * (2 : ℚ) ^ k) := by
  have h0 : (0 : ℚ) ≤ (m : ℚ) * (2 : ℚ) ^ k :=
    mul_nonneg (Nat.cast_nonneg m) (two_zpow_pos k).le
  constructor
  · rw [abs_of_nonneg h0]
    exact ⟨m, k, hm, hk, rfl⟩
  · rw [abs_of_nonneg h0]
    exact hlt

/-- Without a generator output the sampler on a degenerate interval returns
its bound: `s * (m - m) + m` is `m` for every scale factor `s`. -/
theorem sample_uniform_degenerate (RAND_MAX r : ℕ) (m : ℚ) (hRM : 0 < RAND_MAX)
    (hRM53 : RAND_MAX < 2 ^ 53) (hr : r ≤ RAND_MAX) (hm : IsFinite m) :
    sample_uniform RAND_MAX r (fin m) (fin m) = fin m := by
  obtain ⟨hs, _, _, _⟩ := scale_eq RAND_MAX r hRM hRM53 hr
  unfold sample_uniform
  simp only [hs, fsub_fin, sub_self, rnd_zero, fmul_fin, mul_zero, fadd_fin, zero_add,
    rnd_of_isFinite hm]

/-- C2, as the code has it. Let `min < max` be finite doubles whose difference
`max - min` does not overflow, `0 < RAND_MAX < 2^53`, and `r` a generator
output with `0 ≤ r ≤ RAND_MAX`. The value that `sample_uniform(min, max)`
computes in double arithmetic is at least `min` and at most
`(max - min) + min` (both operations rounded); it is exactly that bound at
`r = RAND_MAX`, and the bound is `max` itself when `min = 0`. -/
theorem sample_uniform_bounds (RAND_MAX r : ℕ) (min max d : ℚ)
    (hRM : 0 < RAND_MAX) (hRM53 : RAND_MAX < 2 ^ 53) (hr : r ≤ RAND_MAX)
    (hmin : IsFinite min) (hmax : IsFinite max) (hlt : min < max)
    (hd : fsub (fin max) (fin min) = fin d) :
    fle (fin min) (sample_uniform RAND_MAX r (fin min) (fin max)) = true
      ∧ fle (sample_uniform RAND_MAX r (fin min) (fin max)) (fadd (fin d) (fin min)) = true
      ∧ sample_uniform RAND_MAX RAND_MAX (fin min) (fin max) = fadd (fin d) (fin min)
      ∧ (min = 0 → fadd (fin d) (fin min) = fin max) := by
  obtain ⟨hs, hs0, hs1, _⟩ := scale_eq RAND_MAX r hRM hRM53 hr
  obtain ⟨hdq, hdfin⟩ := fsub_eq_fin hd
  have hd0 : 0 ≤ d := by
    have := roundQ_mono (show (0 : ℚ) ≤ max - min by linarith)
    rwa [roundQ_zero, ← hdq] at this
  obtain ⟨ht, htlo, hthi⟩ := fmul_scale hs0 hs1 hdfin
  rw [min_eq_left hd0] at htlo
  rw [max_eq_right hd0] at hthi
  refine ⟨?_, ?_, ?_, ?_⟩
  · unfold sample_uniform
    simp only [hs, hd, ht, fadd_fin]
    exact fle_fin_rnd hmin (by linarith)
  · unfold sample_uniform
    simp only [hs, hd, ht, fadd_fin]
    exact fle_rnd_mono (by linarith)
  · unfold sample_uniform
    simp only [scale_eq_one RAND_MAX hRM hRM53, hd, fmul_fin, one_mul,
      rnd_of_isFinite hdfin]
  · intro h0
    subst h0
    rw [sub_zero, roundQ_of_representable hmax.1] at hdq
    rw [hdq, fadd_fin, add_zero, rnd_of_isFinite hmax]

theorem sample_uniform_bounds_witness :
    (0 < 2147483647 ∧ 2147483647 < 2 ^ 53 ∧ 1073741823 ≤ 2147483647
      ∧ IsFinite 2 ∧ IsFinite 5 ∧ (2 : ℚ) < 5 ∧ fsub (fin 5) (fin 2) = fin 3)
    ∧ (fle (fin 2) (sample_uniform 2147483647 1073741823 (fin 2) (fin 5)) = true
      ∧ fle (sample_uniform 2147483647 1073741823 (fin 2) (fin 5))
          (fadd (fin 3) (fin 2)) = true
      ∧ sample_uniform 2147483647 2147483647 (fin 2) (fin 5) = fadd (fin 3) (fin 2)
      ∧ ((2 : ℚ) = 0 → fadd (fin 3) (fin 2) = fin 5)) :=
  have h2 : IsFinite 2 := isFinite_two
  have h5 : IsFinite 5 := by simpa using isFinite_natCast (n := 5) (by norm_num)
  have hd : fsub (fin 5) (fin 2) = fin 3 := by
    rw [fsub_fin]
    have := rnd_natCast (n := 3) (by norm_num)
    norm_num at this ⊢
    exact this
  ⟨⟨by norm_num, by norm_num, by norm_num, h2, h5, by norm_num, hd⟩,
    sample_uniform_bounds 2147483647 1073741823 2 5 3
      (by norm_num) (by norm_num) (by norm_num) h2 h5 (by norm_num) hd⟩

/-- C2 fails as stated: with `min = 0 < 1 = max` and the generator output
`r = RAND_MAX = 2147483647`, `sample_uniform` returns `max` itself, which is
not strictly below `max`. -/
theorem sample_uniform_reaches_max :
    (0 : ℚ) < 1 ∧ 2147483647 ≤ 2147483647
      ∧ sample_uniform 2147483647 2147483647 (fin 0) (fin 1) = fin 1
      ∧ flt (sample_uniform 2147483647 2147483647 (fin 0) (fin 1)) (fin 1) = false := by
  have h : sample_uniform 2147483647 2147483647 (fin 0) (fin 1) = fin 1 := by
    rw [sample_uniform_zero_one 2147483647 2147483647 (by norm_num) (by norm_num) (le_refl _)]
    have : ((2147483647 : ℕ) : ℚ) / ((2147483647 : ℕ) : ℚ) = 1 := by norm_num
    rw [this, roundQ_one]
  refine ⟨by norm_num, le_refl _, h, ?_⟩
  rw [h]
  simp [flt]

/-- The upper bound `(max - min) + min` of C2 can lie above `max`: at
`min = -2`, `max = 0.1` (the double `3602879701896397 * 2^(-55)`) and
`r = RAND_MAX = 2147483647`, `sample_uniform` returns
`225179981368525 * 2^(-51) = 0.10000000000000009`, which exceeds `max`. -/
theorem sample_uniform_exceeds_max :
    sample_uniform 2147483647 2147483647 (fin (-2))
        (fin (3602879701896397 * (2 : ℚ) ^ (-55 : ℤ)))
      = fin (225179981368525 * (2 : ℚ) ^ (-51 : ℤ))
    ∧ flt (fin (3602879701896397 * (2 : ℚ) ^ (-55 : ℤ)))
        (sample_uniform 2147483647 2147483647 (fin (-2))
          (fin (3602879701896397 * (2 : ℚ) ^ (-55 : ℤ)))) = true := by
  have hq : roundQ (3602879701896397 * (2 : ℚ) ^ (-55 : ℤ) - -2)
      = ((4728779608739021 : ℕ) : ℚ) * (2 : ℚ) ^ (-51 : ℤ) := by
    have h := roundQ_eval (x := 3602879701896397 * (2 : ℚ) ^ (-55 : ℤ) - -2) (e := 1)
      (n := 4728779608739021) (by norm_num) (by norm_num) (by norm_num)
      (roundHalfEven_of_abs_sub_lt (by rw [abs_lt]; constructor <;> norm_num))
    rw [h]
    norm_num
  have hdfin : IsFinite (((4728779608739021 : ℕ) : ℚ) * (2 : ℚ) ^ (-51 : ℤ)) :=
    isFinite_of_mag (by norm_num) (by norm_num) (by norm_num)
  have hsum : ((4728779608739021 : ℕ) : ℚ) * (2 : ℚ) ^ (-51 : ℤ) + -2
      = ((225179981368525 : ℕ) : ℚ) * (2 : ℚ) ^ (-51 : ℤ) := by norm_num
  have hrfin : IsFinite (((225179981368525 : ℕ) : ℚ) * (2 : ℚ) ^ (-51 : ℤ)) :=
    isFinite_of_mag (by norm_num) (by norm_num) (by norm_num)
  have h : sample_uniform 2147483647 2147483647 (fin (-2))
      (fin (3602879701896397 * (2 : ℚ) ^ (-55 : ℤ)))
      = fin (225179981368525 * (2 : ℚ) ^ (-51 : ℤ)) := by
    unfold sample_uniform
    simp only [scale_eq_one 2147483647 (by norm_num) (by norm_num), fsub_fin]
    rw [rnd_of_lt (by rw [hq]; norm_num) (by rw [hq]; norm_num), hq, fmul_fin, one_mul,
      rnd_of_isFinite hdfin, fadd_fin, hsum, rnd_of_isFinite hrfin]
    norm_num
  refine ⟨h, ?_⟩
  rw [h]
  norm_num [flt]

/-- C3, as the code has it. Let `max ≤ min` be finite doubles whose difference
`max - min` does not overflow, `0 < RAND_MAX < 2^53`, and `r` a generator
output with `0 ≤ r ≤ RAND_MAX`. The call `sample_uniform(min, max)` does not
fail: it returns a value `v` with `(max - min) + min ≤ v ≤ min` in double
arithmetic, and `v` is `min` itself when `min = max`. -/
theorem sample_uniform_call_degenerate (RAND_MAX r : ℕ) (min max d : ℚ)
    (hRM : 0 < RAND_MAX) (hRM53 : RAND_MAX < 2 ^ 53) (hr : r ≤ RAND_MAX)
    (hmin : IsFinite min) (hge : max ≤ min)
    (hd : fsub (fin max) (fin min) = fin d) :
    ∃ v, sample_uniform_call RAND_MAX r (fin min) (fin max) = Except.ok v
      ∧ fle (fadd (fin d) (fin min)) v = true
      ∧ fle v (fin min) = true
      ∧ (min = max → v = fin min) := by
  obtain ⟨hs, hs0, hs1, _⟩ := scale_eq RAND_MAX r hRM hRM53 hr
  obtain ⟨hdq, hdfin⟩ := fsub_eq_fin hd
  have hd0 : d ≤ 0 := by
    have := roundQ_mono (show max - min ≤ (0 : ℚ) by linarith)
    rwa [roundQ_zero, ← hdq] at this
  obtain ⟨ht, htlo, hthi⟩ := fmul_scale hs0 hs1 hdfin
  rw [min_eq_right hd0] at htlo
  rw [max_eq_left hd0] at hthi
  refine ⟨sample_uniform RAND_MAX r (fin min) (fin max), rfl, ?_, ?_, ?_⟩
  · unfold sample_uniform
    simp only [hs, hd, ht, fadd_fin]
    exact fle_rnd_mono (by linarith)
  · unfold sample_uniform
    simp only [hs, hd, ht, fadd_fin]
    exact fle_rnd_fin hmin (by linarith)
  · intro h
    subst h
    exact sample_uniform_degenerate RAND_MAX r min hRM hRM53 hr hmin

theorem sample_uniform_call_degenerate_witness :
    (0 < 2147483647 ∧ 2147483647 < 2 ^ 53 ∧ 1073741823 ≤ 2147483647
      ∧ IsFinite 3 ∧ (1 : ℚ) ≤ 3 ∧ fsub (fin 1) (fin 3) = fin (-2))
    ∧ ∃ v, sample_uniform_call 2147483647 1073741823 (fin 3) (fin 1) = Except.ok v
      ∧ fle (fadd (fin (-2)) (fin 3)) v = true
      ∧ fle v (fin 3) = true
      ∧ ((3 : ℚ) = 1 → v = fin 3) :=
  have h3 : IsFinite 3 := by simpa using isFinite_natCast (n := 3) (by norm_num)
  have hd : fsub (fin 1) (fin 3) = fin (-2) := by
    rw [fsub_fin]
    have := rnd_of_isFinite (isFinite_neg isFinite_two)
    norm_num at this ⊢
    exact this
  ⟨⟨by norm_num, by norm_num, by norm_num, h3, by norm_num, hd⟩,
    sample_uniform_call_degenerate 2147483647 1073741823 3 1 (-2)
      (by norm_num) (by norm_num) (by norm_num) h3 (by norm_num) hd⟩

/-- C3 fails as stated: `sample_uniform(0, 0)` returns the value 0 and does
not fail with `InvalidIntervalError`, although `min ≥ max`. -/
theorem sample_uniform_call_zero_zero :
    (0 : ℚ) ≤ 0
      ∧ sample_uniform_call 2147483647 0 (fin 0) (fin 0) = Except.ok (fin 0)
      ∧ sample_uniform_call 2147483647 0 (fin 0) (fin 0)
          ≠ Except.error SamplerError.InvalidIntervalError := by
  have h : sample_uniform 2147483647 0 (fin 0) (fin 0) = fin 0 :=
    sample_uniform_degenerate 2147483647 0 0 (by norm_num) (by norm_num) (by norm_num)
      isFinite_zero
  refine ⟨le_refl _, ?_, ?_⟩
  · simp [sample_uniform_call, h]
  · simp [sample_uniform_call]

/-! ## The repeated-trial estimator -/

theorem draw_of_eq_zero (RAND_MAX : ℕ) (rand : ℕ → ℕ) (hRM : 0 < RAND_MAX)
    (hRM53 : RAND_MAX < 2 ^ 53) (j : ℕ) (h : rand j = 0) :
    draw RAND_MAX rand j = fin 0 := by
  unfold draw
  rw [h, sample_uniform_zero_one RAND_MAX 0 hRM hRM53 (Nat.zero_le _)]
  simp [roundQ_zero]

theorem draw_of_eq_max (RAND_MAX : ℕ) (rand : ℕ → ℕ) (hRM : 0 < RAND_MAX)
    (hRM53 : RAND_MAX < 2 ^ 53) (j : ℕ) (h : rand j = RAND_MAX) :
    draw RAND_MAX rand j = fin 1 := by
  have hRMq : (RAND_MAX : ℚ) ≠ 0 := by exact_mod_cast hRM.ne'
  unfold draw
  rw [h, sample_uniform_zero_one RAND_MAX RAND_MAX hRM hRM53 (le_refl _), div_self hRMq,
    roundQ_one]

theorem fadd_zero_one : fadd (fin 0) (fin 1) = fin 1 := by
  rw [fadd_fin, zero_add, rnd_one]

theorem fadd_zero_zero : fadd (fin 0) (fin 0) = fin 0 := by
  rw [fadd_fin, zero_add, rnd_zero]

theorem fadd_one_one : fadd (fin 1) (fin 1) = fin 2 := by
  rw [fadd_fin]
  have := rnd_of_isFinite isFinite_two
  norm_num at this ⊢
  exact this

theorem fle_fin_iff {a b : ℚ} : fle (fin a) (fin b) = true ↔ a ≤ b := by
  simp [fle]

theorem flt_fin_iff {a b : ℚ} : flt (fin a) (fin b) = true ↔ a < b := by
  simp [flt]

theorem draw_const_max (j : ℕ) : draw 2147483647 (fun _ => 2147483647) j = fin 1 :=
  draw_of_eq_max 2147483647 _ (by norm_num) (by norm_num) j rfl

theorem stopsAfter_const_max (pos : ℕ) :
    StopsAfter 2147483647 (fun _ => 2147483647) pos 1 := by
  constructor
  · unfold partialSum
    rw [sumFrom, sumFrom, draw_const_max, fadd_zero_one]
    exact fle_fin_iff.mpr (le_refl _)
  · intro j hj
    have : j = 0 := by omega
    subst this
    unfold partialSum
    rw [sumFrom]
    exact flt_fin_iff.mpr (by norm_num)

theorem nearOneStream_le (j : ℕ) : nearOneStream j ≤ 2147483647 := by
  unfold nearOneStream
  split_ifs <;> norm_num

theorem draw_nearOneStream_0 :
    draw 2147483647 nearOneStream 0 = fin (8551394235433701 * (2 : ℚ) ^ (-53 : ℤ)) := by
  unfold draw
  rw [sample_uniform_zero_one 2147483647 _ (by norm_num) (by norm_num) (nearOneStream_le 0)]
  have : ((nearOneStream 0 : ℕ) : ℚ) / ((2147483647 : ℕ) : ℚ)
      = (2038811262 : ℚ) / 2147483647 := by norm_num [nearOneStream]
  rw [this, draw_nearOne_0]

theorem draw_nearOneStream_1 :
    draw 2147483647 nearOneStream 1 = fin (6702442497417132 * (2 : ℚ) ^ (-58 : ℤ)) := by
  unfold draw
  rw [sample_uniform_zero_one 2147483647 _ (by norm_num) (by norm_num) (nearOneStream_le 1)]
  have : ((nearOneStream 1 : ℕ) : ℚ) / ((2147483647 : ℕ) : ℚ)
      = (49937088 : ℚ) / 2147483647 := by norm_num [nearOneStream]
  rw [this, draw_nearOne_1]

theorem draw_nearOneStream_2 :
    draw 2147483647 nearOneStream 2 = fin (7883318120416172 * (2 : ℚ) ^ (-58 : ℤ)) := by
  unfold draw
  rw [sample_uniform_zero_one 2147483647 _ (by norm_num) (by norm_num) (nearOneStream_le 2)]
  have : ((nearOneStream 2 : ℕ) : ℚ) / ((2147483647 : ℕ) : ℚ)
      = (58735297 : ℚ) / 2147483647 := by norm_num [nearOneStream]
  rw [this, draw_nearOne_2]

theorem draw_nearOneStream_3 : draw 2147483647 nearOneStream 3 = fin 1 :=
  draw_of_eq_max 2147483647 _ (by norm_num) (by norm_num) 3 (by simp [nearOneStream])

theorem rnd_eq_of_roundQ {q v : ℚ} (h : roundQ q = v) (h1 : -(2 : ℚ) ^ 1024 < v)
    (h2 : v < (2 : ℚ) ^ 1024) : rnd q = fin v := by
  subst h
  exact rnd_of_lt h1 h2

theorem partialSum_nearOneStream_1 :
    partialSum 2147483647 nearOneStream 0 1
      = fin (8551394235433701 * (2 : ℚ) ^ (-53 : ℤ)) := by
  have hfin : IsFinite (((8551394235433701 : ℕ) : ℚ) * (2 : ℚ) ^ (-53 : ℤ)) :=
    isFinite_of_mag (by norm_num) (by norm_num) (by norm_num)
  simp only [partialSum, sumFrom, add_zero, draw_nearOneStream_0, fadd_fin, zero_add]
  have := rnd_of_isFinite hfin
  norm_num at this ⊢
  exact this

theorem partialSum_nearOneStream_2 :
    partialSum 2147483647 nearOneStream 0 2
      = fin (8760845563477986 * (2 : ℚ) ^ (-53 : ℤ)) := by
  have h1 := partialSum_nearOneStream_1
  unfold partialSum at h1 ⊢
  rw [sumFrom, h1, zero_add, draw_nearOneStream_1, fadd_fin]
  exact rnd_eq_of_roundQ sum_nearOne_2 (by norm_num) (by norm_num)

theorem partialSum_nearOneStream_3 :
    partialSum 2147483647 nearOneStream 0 3
      = fin (9007199254740991 * (2 : ℚ) ^ (-53 : ℤ)) := by
  have h2 := partialSum_nearOneStream_2
  unfold partialSum at h2 ⊢
  rw [sumFrom, h2, zero_add, draw_nearOneStream_2, fadd_fin]
  exact rnd_eq_of_roundQ sum_nearOne_3 (by norm_num) (by norm_num)

theorem partialSum_nearOneStream_4 :
    partialSum 2147483647 nearOneStream 0 4 = fin 2 := by
  have h3 := partialSum_nearOneStream_3
  unfold partialSum at h3 ⊢
  rw [sumFrom, h3, zero_add, draw_nearOneStream_3, fadd_fin]
  exact rnd_eq_of_roundQ sum_nearOne_4 (by norm_num) (by norm_num)

/-- On `nearOneStream` the repetition consumes 4 draws: after 3 draws the
rolling sum is `1 - 2^(-53)`, still below 1. -/
theorem stopsAfter_nearOneStream : StopsAfter 2147483647 nearOneStream 0 4 := by
  constructor
  · rw [partialSum_nearOneStream_4]
    norm_num [fle]
  · intro j hj
    interval_cases j
    · norm_num [partialSum, sumFrom, flt]
    · rw [partialSum_nearOneStream_1]; norm_num [flt]
    · rw [partialSum_nearOneStream_2]; norm_num [flt]
    · rw [partialSum_nearOneStream_3]; norm_num [flt]

theorem sumFrom_congr (RAND_MAX : ℕ) (rand rand' : ℕ → ℕ) (s : Double) (pos : ℕ) :
    ∀ k, (∀ j, j < k → rand (pos + j) = rand' (pos + j)) →
      sumFrom RAND_MAX rand s pos k = sumFrom RAND_MAX rand' s pos k := by
  intro k
  induction k with
  | zero => intro _; rfl
  | succ k ih =>
    intro h
    rw [sumFrom, sumFrom, ih (fun j hj => h j (Nat.lt_succ_of_lt hj))]
    unfold draw
    rw [h k (Nat.lt_succ_self k)]

theorem stallingStream_le (j : ℕ) : stallingStream j ≤ 2147483647 := by
  unfold stallingStream
  split_ifs <;> norm_num

theorem partialSum_stallingStream_of_le {k : ℕ} (hk : k ≤ 3) :
    partialSum 2147483647 stallingStream 0 k = partialSum 2147483647 nearOneStream 0 k := by
  unfold partialSum
  apply sumFrom_congr
  intro j hj
  have hj3 : j < 3 := by omega
  interval_cases j <;> simp [stallingStream, nearOneStream]

/-- On `stallingStream` the rolling sum reaches `1 - 2^(-53)` after three
draws and stays there: every later draw is 0. -/
theorem partialSum_stallingStream (k : ℕ) :
    partialSum 2147483647 stallingStream 0 (3 + k)
      = fin (9007199254740991 * (2 : ℚ) ^ (-53 : ℤ)) := by
  induction k with
  | zero => rw [partialSum_stallingStream_of_le (le_refl _), partialSum_nearOneStream_3]
  | succ k ih =>
    have hfin : IsFinite (((9007199254740991 : ℕ) : ℚ) * (2 : ℚ) ^ (-53 : ℤ)) :=
      isFinite_of_mag (by norm_num) (by norm_num) (by norm_num)
    have hd : draw 2147483647 stallingStream (0 + (3 + k)) = fin 0 :=
      draw_of_eq_zero 2147483647 stallingStream (by norm_num) (by norm_num) _ (by
        have h0 : 0 + (3 + k) ≠ 0 := by omega
        have h1 : 0 + (3 + k) ≠ 1 := by omega
        have h2 : 0 + (3 + k) ≠ 2 := by omega
        simp only [stallingStream, h0, h1, h2, if_false])
    unfold partialSum at ih ⊢
    rw [show 3 + (k + 1) = (3 + k) + 1 by omega, sumFrom, ih, hd, fadd_fin, add_zero]
    have := rnd_of_isFinite hfin
    norm_num at this ⊢
    exact this

theorem flt_partialSum_stallingStream (j : ℕ) :
    flt (partialSum 2147483647 stallingStream 0 j) (fin 1) = true := by
  rcases Nat.lt_or_ge j 3 with hlt | hge
  · rw [partialSum_stallingStream_of_le hlt.le]
    exact stopsAfter_nearOneStream.2 j (by omega)
  · obtain ⟨k, rfl⟩ : ∃ k, j = 3 + k := ⟨j - 3, by omega⟩
    rw [partialSum_stallingStream]
    exact flt_fin_iff.mpr (by norm_num)

/-- The exit of the loop is decided by the rolling sum in double arithmetic,
not by the exact sum of the quotients `r / RAND_MAX`: on `stallingStream` the
three non-zero outputs add up to `RAND_MAX`, yet the rolling sum stays below 1
and the loop returns for no amount of fuel. -/
theorem simple_e_while_stallingStream :
    ((stallingStream 0 : ℚ) + (stallingStream 1 : ℚ) + (stallingStream 2 : ℚ)) / 2147483647 = 1
      ∧ ∀ fuel, simple_e_while 2147483647 stallingStream fuel (fin 0) (fin 0) 0 = none := by
  constructor
  · norm_num [stallingStream]
  · intro fuel
    cases h : simple_e_while 2147483647 stallingStream fuel (fin 0) (fin 0) 0 with
    | none => rfl
    | some r =>
      obtain ⟨k, _, _, _, h1, _⟩ :=
        simple_e_while_repetition_some 2147483647 stallingStream fuel 0 r h
      rw [flt_partialSum_stallingStream k] at h1
      exact absurd h1 (by simp)

theorem stopsAfter_nearOneStream_tail (pos : ℕ) (hpos : 3 ≤ pos) :
    StopsAfter 2147483647 nearOneStream pos 1 := by
  have hd : draw 2147483647 nearOneStream (pos + 0) = fin 1 :=
    draw_of_eq_max 2147483647 nearOneStream (by norm_num) (by norm_num) _ (by
      have h0 : pos ≠ 0 := by omega
      have h1 : pos ≠ 1 := by omega
      have h2 : pos ≠ 2 := by omega
      simp [nearOneStream, h0, h1, h2])
  constructor
  · unfold partialSum
    rw [sumFrom, sumFrom, hd, fadd_zero_one]
    exact fle_fin_iff.mpr (le_refl _)
  · intro j hj
    have : j = 0 := by omega
    subst this
    unfold partialSum
    rw [sumFrom]
    exact flt_fin_iff.mpr (by norm_num)

/-- On `nearOneStream` the first repetition consumes 4 draws and every later
one a single draw. -/
theorem stopsAfter_nearOneStream_all (i : ℕ) :
    StopsAfter 2147483647 nearOneStream (startOf (fun i => if i = 0 then 4 else 1) i)
      (if i = 0 then 4 else 1) := by
  rcases Nat.eq_zero_or_pos i with h0 | hpos
  · subst h0
    simpa [startOf] using stopsAfter_nearOneStream
  · rw [if_neg (by omega)]
    apply stopsAfter_nearOneStream_tail
    have : (fun i => if i = 0 then 4 else 1) 0 ≤ startOf (fun i => if i = 0 then 4 else 1) i :=
      Finset.single_le_sum (f := fun i => if i = 0 then 4 else 1)
        (fun _ _ => Nat.zero_le _) (Finset.mem_range.mpr hpos)
    simp only [if_true] at this
    omega

/-- C1, the code at the boundary. When the first call of `rand()` returns
`RAND_MAX` (here 2147483647), the first draw is exactly 1 and the loop of
`simple_e` returns with count 1 after that single draw, whatever the fuel:
the rolling sum is then equal to 1 and does not exceed 1. The least number of
draws whose sum exceeds 1 is 2 on this stream. -/
theorem simple_e_while_stops_at_sum_one :
    (∀ fuel, simple_e_while 2147483647 (fun _ => 2147483647) (fuel + 1) (fin 0) (fin 0) 0
        = some (fin 1, fin 1, 1))
      ∧ partialSum 2147483647 (fun _ => 2147483647) 0 1 = fin 1
      ∧ flt (fin 1) (partialSum 2147483647 (fun _ => 2147483647) 0 1) = false
      ∧ flt (fin 1) (partialSum 2147483647 (fun _ => 2147483647) 0 2) = true := by
  have h1 : partialSum 2147483647 (fun _ => 2147483647) 0 1 = fin 1 := by
    unfold partialSum
    rw [sumFrom, sumFrom, draw_const_max, fadd_zero_one]
  have h2 : partialSum 2147483647 (fun _ => 2147483647) 0 2 = fin 2 := by
    unfold partialSum at h1 ⊢
    rw [sumFrom, h1, draw_const_max, fadd_one_one]
  refine ⟨?_, h1, ?_, ?_⟩
  · intro fuel
    rw [simple_e_while_repetition 2147483647 (fun _ => 2147483647) 1 (fuel + 1) 0
      (by omega) (stopsAfter_const_max 0), h1, recordedCount_eq (k := 1) (by norm_num)]
    norm_num
  · rw [h1]
    exact flt_eq_false_of_fle (fle_fin_iff.mpr (le_refl _))
  · rw [h2]
    exact flt_fin_iff.mpr (by norm_num)

/-- C6. `simple_e` returns the arithmetic mean of the recorded counts over
exactly 50000 repetitions, in double arithmetic. Let repetition `i` (for
`i < 50000`) start where repetition `i - 1` ended and consume `counts i`
draws: the sum of these draws is at least 1 and every shorter partial sum is
below 1. Then with enough fuel every repetition of the code starts from
rolling sum 0 and count 0 at the position where the previous one ended and
records its count after `counts i` draws, and `simple_e` returns the total of
the recorded counts divided by 50000; no amount of fuel makes it return
another value. As long as the run consumes at most `2^53` draws, every
recorded count is exactly `counts i`, the total is exactly
`counts 0 + ... + counts 49999`, and the value returned is the double nearest
to `(counts 0 + ... + counts 49999) / 50000`. -/
theorem simple_e_eq_mean (RAND_MAX : ℕ) (rand : ℕ → ℕ) (counts : ℕ → ℕ)
    (h : ∀ i, i < 50000 → StopsAfter RAND_MAX rand (startOf counts i) (counts i)) :
    (∃ fuel₀, ∀ fuel, fuel₀ ≤ fuel →
        (∀ i, i < 50000 →
          simple_e_while RAND_MAX rand fuel (fin 0) (fin 0) (startOf counts i)
            = some (partialSum RAND_MAX rand (startOf counts i) (counts i),
                recordedCount (counts i), startOf counts (i + 1)))
        ∧ simple_e RAND_MAX rand fuel
            = some (fdiv (totalAfter counts 50000) (fin 50000)))
      ∧ (∀ fuel v, simple_e RAND_MAX rand fuel = some v →
          v = fdiv (totalAfter counts 50000) (fin 50000))
      ∧ (∑ i in Finset.range 50000, counts i ≤ 2 ^ 53 →
          (∀ i, i < 50000 → recordedCount (counts i) = fin (counts i : ℚ))
          ∧ totalAfter counts 50000
              = fin ((∑ i in Finset.range 50000, counts i : ℕ) : ℚ)
          ∧ fdiv (totalAfter counts 50000) (fin 50000)
              = rnd (((∑ i in Finset.range 50000, counts i : ℕ) : ℚ) / 50000)) := by
  have h0 : startOf counts 0 = 0 := by simp [startOf]
  have ht0 : totalAfter counts 0 = fin 0 := rfl
  refine ⟨?_, ?_, ?_⟩
  · refine ⟨∑ i in Finset.range 50000, counts i, fun fuel hfuel => ?_⟩
    have hf : ∀ i, i < 50000 → counts i ≤ fuel := fun i hi =>
      le_trans (Finset.single_le_sum (f := counts) (fun _ _ => Nat.zero_le _)
        (Finset.mem_range.mpr hi)) hfuel
    constructor
    · intro i hi
      rw [startOf_succ]
      exact simple_e_while_repetition RAND_MAX rand (counts i) fuel _ (hf i hi) (h i hi)
    · have hfor := simple_e_for_of_stops RAND_MAX rand fuel 50000 counts h hf 50000 0
        (by norm_num)
      rw [h0, ht0] at hfor
      simp only [Nat.cast_ofNat] at hfor
      simp only [simple_e, hfor]
  · intro fuel v hv
    unfold simple_e at hv
    cases hfor : simple_e_for RAND_MAX rand fuel 50000 0 (fin 0) 0 with
    | none => simp [hfor] at hv
    | some r =>
      have hr := simple_e_for_some_of_stops RAND_MAX rand fuel 50000 counts h 50000 0 r
        (by norm_num) (by rw [h0, ht0]; simpa using hfor)
      simp only [hfor, Option.some.injEq] at hv
      rw [← hv, hr]
  · intro hsum
    have htot := totalAfter_eq counts 50000 hsum
    refine ⟨fun i hi => recordedCount_eq ?_, htot, ?_⟩
    · exact le_trans (Finset.single_le_sum (f := counts) (fun _ _ => Nat.zero_le _)
        (Finset.mem_range.mpr hi)) hsum
    · rw [htot, fdiv_fin (by norm_num)]

theorem simple_e_eq_mean_witness :
    (∀ i, i < 50000 →
        StopsAfter 2147483647 nearOneStream (startOf (fun i => if i = 0 then 4 else 1) i)
          ((fun i => if i = 0 then 4 else 1) i))
    ∧ ((∃ fuel₀, ∀ fuel, fuel₀ ≤ fuel →
        (∀ i, i < 50000 →
          simple_e_while 2147483647 nearOneStream fuel (fin 0) (fin 0)
              (startOf (fun i => if i = 0 then 4 else 1) i)
            = some (partialSum 2147483647 nearOneStream
                  (startOf (fun i => if i = 0 then 4 else 1) i)
                  ((fun i => if i = 0 then 4 else 1) i),
                recordedCount ((fun i => if i = 0 then 4 else 1) i),
                startOf (fun i => if i = 0 then 4 else 1) (i + 1)))
        ∧ simple_e 2147483647 nearOneStream fuel
            = some (fdiv (totalAfter (fun i => if i = 0 then 4 else 1) 50000) (fin 50000)))
      ∧ (∀ fuel v, simple_e 2147483647 nearOneStream fuel = some v →
          v = fdiv (totalAfter (fun i => if i = 0 then 4 else 1) 50000) (fin 50000))
      ∧ (∑ i in Finset.range 50000, (fun i => if i = 0 then 4 else 1) i ≤ 2 ^ 53 →
          (∀ i, i < 50000 → recordedCount ((fun i => if i = 0 then 4 else 1) i)
              = fin (((fun i => if i = 0 then 4 else 1) i : ℕ) : ℚ))
          ∧ totalAfter (fun i => if i = 0 then 4 else 1) 50000
              = fin ((∑ i in Finset.range 50000,
                  (fun i => if i = 0 then 4 else 1) i : ℕ) : ℚ)
          ∧ fdiv (totalAfter (fun i => if i = 0 then 4 else 1) 50000) (fin 50000)
              = rnd (((∑ i in Finset.range 50000,
                  (fun i => if i = 0 then 4 else 1) i : ℕ) : ℚ) / 50000))) :=
  ⟨fun i _ => stopsAfter_nearOneStream_all i,
    simple_e_eq_mean 2147483647 nearOneStream (fun i => if i = 0 then 4 else 1)
      (fun i _ => stopsAfter_nearOneStream_all i)⟩

end SignaloidConstants
